import Mathlib

/-!
Verification of the `GCSafepoint` LLVM function pass
(`src/llvm-gc-safepoint.cpp`).

The pass inserts GC safepoint polls into a function: one at the entry
(immediately after the call establishing the per-thread `pgcstack`
GC-state handle, creating that call if absent) and one immediately
before the terminator of every backedge source block of every loop in
the loop forest.

The embedding models LLVM IR shallowly:
* SSA values are numeric ids (plain `Nat`); `IRBuilder` id assignment is
  modelled by threading a fresh-id counter (every id created by the
  pass is strictly above every id occurring in the input function).
* a basic block is a list of non-terminator instructions plus a
  terminator carrying its operands and successor block indices;
* a function is a list of basic blocks, index 0 being the entry block;
* loop info (an external analysis consumed by the pass) is a list of
  loops in preorder, each a header index plus a member-block list.

`JuliaPassContext` helpers (`getPGCstack`, `initAll`, `getOrDeclare`)
live in `llvm-pass-helpers.cpp`, which is not part of this repository
snapshot; `getPGCstack` is modelled from the spec (see its doc
comment).  `initAll`/`getOrDeclare` only resolve module-level
declarations and do not touch the function body, so callees are
modelled as plain enumerated names.  The `offsetof(jl_tls_states_t,
safepoint)` constant and `sizeof(void*)` are parameters `off`, `sz`.
-/

/-- Callees that the pass knows about: the two `jl_intrinsics` it
declares (`getPGCStack` establishes the GC-state handle, `GCRootFlush`
is the root-flush marker) and arbitrary other functions. -/
inductive Callee where
  | getPGCStack
  | GCRootFlush
  | externFn (n : Nat)
deriving DecidableEq, Repr

/-- Atomic orderings (the pass only ever uses `SequentiallyConsistent`;
the others witness that the fence fields are not degenerate). -/
inductive MemOrder where
  | SequentiallyConsistent
  | Acquire
  | Release
  | Monotonic
deriving DecidableEq, Repr

/-- Synchronization scopes. -/
inductive SyncScopeKind where
  | SingleThread
  | System
deriving DecidableEq, Repr

/-- The two load result types occurring in the emitted code: `T_size`
(one machine word) for the probe load, pointer-to-`T_size` for the load
of the safepoint-page-pointer field. -/
inductive LoadTy where
  | T_size
  | T_psize
deriving DecidableEq, Repr

/-- Shallow LLVM instructions.  Every value-producing instruction
carries its result id first; `uses`/operand ids follow. -/
inductive Instr where
  | phi (res : Nat) (incoming : List Nat)
  | call (res : Nat) (callee : Callee) (args : List Nat)
  | fence (ord : MemOrder) (scope : SyncScopeKind)
  | gep (res : Nat) (base : Nat) (idx : Nat)
  | bitcast (res : Nat) (src : Nat)
  | load (res : Nat) (ty : LoadTy) (addr : Nat) (volatile : Bool)
  | other (res : Nat) (uses : List Nat)
deriving DecidableEq, Repr

instance : Inhabited Instr := ⟨Instr.other 0 []⟩

/-- A terminator: an opaque tag, its operand ids, and the successor
block indices it defines. -/
structure Term where
  tag : Nat
  opnds : List Nat
  succs : List Nat
deriving DecidableEq, Repr

instance : Inhabited Term := ⟨⟨0, [], []⟩⟩

/-- A basic block: ordered non-terminator instructions plus the
terminator. -/
structure BB where
  insts : List Instr
  term : Term
deriving DecidableEq, Repr

instance : Inhabited BB := ⟨⟨[], default⟩⟩

/-- A function: ordered basic blocks, index 0 is the entry block. -/
structure Fn where
  blocks : List BB
deriving DecidableEq, Repr

/-- A loop of the loop forest: header block index and member block
indices (members include the blocks of nested loops, as
`Loop::contains` does). -/
structure Loop where
  header : Nat
  blocks : List Nat
deriving DecidableEq, Repr

/-- Block at index `b` (defaulting, for total indexing). -/
def blk (F : Fn) (b : Nat) : BB := F.blocks.getD b default

def isPhi : Instr → Bool
  | .phi _ _ => true
  | _ => false

/-- `BasicBlock::getFirstNonPHI`: index of the first non-phi
instruction; the instruction-list length if all are phis (i.e. the
terminator position). -/
def firstNonPHI (bb : BB) : Nat := bb.insts.findIdx (fun i => !isPhi i)

/-- Is this a call to the pgcstack-establishing intrinsic? -/
def isPgcCall : Instr → Bool
  | .call _ .getPGCStack _ => true
  | _ => false

/-- Is this a call to the root-flush intrinsic? -/
def isFlush : Instr → Bool
  | .call _ .GCRootFlush _ => true
  | _ => false

def isVolLoad : Instr → Bool
  | .load _ _ _ true => true
  | _ => false

/-- Result id of an instruction (0 for fences, which produce no usable
value). -/
def resOf : Instr → Nat
  | .phi r _ => r
  | .call r _ _ => r
  | .fence _ _ => 0
  | .gep r _ _ => r
  | .bitcast r _ => r
  | .load r _ _ _ => r
  | .other r _ => r

/-- Operand ids of an instruction. -/
def usesOf : Instr → List Nat
  | .phi _ inc => inc
  | .call _ _ args => args
  | .fence _ _ => []
  | .gep _ b _ => [b]
  | .bitcast _ s => [s]
  | .load _ _ a _ => [a]
  | .other _ us => us

/-- All ids (results and operands) mentioned by an instruction. -/
def idsOf (i : Instr) : List Nat := resOf i :: usesOf i

/-- All operand ids occurring in a function (instruction operands and
terminator operands). -/
def usedIds (F : Fn) : List Nat :=
  F.blocks.flatMap (fun bb => bb.insts.flatMap usesOf ++ bb.term.opnds)

/-- Largest id mentioned anywhere in the function; ids above it are
fresh. -/
def maxIdFn (F : Fn) : Nat :=
  (F.blocks.flatMap (fun bb => bb.insts.flatMap idsOf ++ bb.term.opnds)).foldr Nat.max 0

/-- Insert instructions into block `b` immediately before position `i`
(LLVM: `IRBuilder` insertion before the cursor instruction; `i` equal
to the list length means insertion just before the terminator). -/
def insertInstsAt (F : Fn) (b i : Nat) (new : List Instr) : Fn :=
  ⟨F.blocks.set b { blk F b with insts := (blk F b).insts.take i ++ new ++ (blk F b).insts.drop i }⟩

/-- Insert instructions immediately before block `b`'s terminator
(LLVM: `B.SetInsertPoint(BB->getTerminator())` then emitting). -/
def appendToBlock (F : Fn) (b : Nat) (new : List Instr) : Fn :=
  ⟨F.blocks.set b { blk F b with insts := (blk F b).insts ++ new }⟩

/-- First pgcstack-establishing call in an instruction list: its index
and result id. -/
def findPgcIn : List Instr → Option (Nat × Nat)
  | [] => none
  | x :: l =>
    if isPgcCall x then some (0, resOf x)
    else (findPgcIn l).map (fun p => (p.1 + 1, p.2))

/-- Scan worker for `getPGCstack`: blocks in order, `b` the index of
the first block of the remaining list. -/
def getPGCgo : Nat → List BB → Option (Nat × Nat × Nat)
  | _, [] => none
  | b, bb :: rest =>
    match findPgcIn bb.insts with
    | some (i, r) => some (b, i, r)
    | none => getPGCgo (b + 1) rest

/-- Modelled from the spec: `JuliaPassContext::getPGCstack` lives in
`llvm-pass-helpers.cpp`, which is not part of this snapshot.  Per spec
§4.1 the locator "scans F's instructions for an existing call
establishing the GC-state pointer; if found, returns it unchanged
(idempotent, no mutation)".  Modelled as a scan of all instructions in
block order returning the first pgcstack-establishing call's position
(block index, instruction index) and result id, with no mutation. -/
def getPGCstack (F : Fn) : Option (Nat × Nat × Nat) := getPGCgo 0 F.blocks

/-- `offsetof(jl_tls_states_t, safepoint) / sizeof(void *)` (source
line 53), with the offset and pointer size as parameters. -/
def nthfield (off sz : Nat) : Nat := off / sz

/-- `GCSafepoint::getCurrentSignalPage`: emits an inbounds GEP of the
handle by `nthfield` pointer-sized fields, a bitcast of the resulting
field address, and a load of the safepoint-page-pointer field; returns
the emitted instructions and the result id of that load.  `f` is the
next fresh id, `pg` the pgcstack handle id. -/
def getCurrentSignalPage (f pg off sz : Nat) : List Instr × Nat :=
  ([Instr.gep f pg (nthfield off sz),
    Instr.bitcast (f + 1) f,
    Instr.load (f + 2) .T_psize (f + 1) false], f + 2)

/-- `GCSafepoint::emitGCSafepoint`: a call to the root-flush intrinsic
with no operands, a sequentially-consistent single-thread fence, the
`getCurrentSignalPage` instructions, a volatile one-word load through
the signal-page pointer, and a second identical fence — in builder
order. -/
def emitGCSafepoint (f pg off sz : Nat) : List Instr :=
  Instr.call f .GCRootFlush [] ::
  Instr.fence .SequentiallyConsistent .SingleThread ::
  (getCurrentSignalPage (f + 1) pg off sz).1 ++
  [Instr.load (f + 4) .T_size (getCurrentSignalPage (f + 1) pg off sz).2 true,
   Instr.fence .SequentiallyConsistent .SingleThread]

/-- The incoming CFG edges of block `h`, one entry per edge, as the
source block index (`children<Inverse<BasicBlock*>>(Header)`; a block
branching to `h` twice contributes two entries). -/
def predOccs (F : Fn) (h : Nat) : List Nat :=
  (List.range F.blocks.length).flatMap
    (fun b => (blk F b).term.succs.filterMap (fun s => if s = h then some b else none))

/-- The qualifying backedges of one loop: incoming edges of the header
whose source block is a member of the loop (`Loop::contains`). -/
def backedgeSrcs (F : Fn) (L : Loop) : List Nat :=
  (predOccs F L.header).filter (fun b => L.blocks.contains b)

/-- All qualifying backedges, loops in preorder, with multiplicity. -/
def backedges (F : Fn) (LI : List Loop) : List Nat :=
  LI.flatMap (backedgeSrcs F)

/-- The backedge loop of `runOnFunction`: for each backedge source (in
order), set the insertion point to that block's terminator and emit one
safepoint sequence; `fr` is the fresh-id counter (each sequence
consumes 5 result ids). -/
def emitLoops (off sz pg : Nat) : List Nat → Fn × Nat → Fn × Nat
  | [], s => s
  | b :: bs, (F, fr) =>
      emitLoops off sz pg bs (appendToBlock F b (emitGCSafepoint fr pg off sz), fr + 5)

/-- Entry part of `runOnFunction`: locate the pgcstack handle (creating
it at the entry block's first-non-phi position if absent), set the
insertion point immediately after it, and emit the entry safepoint
sequence.  Returns the mutated function, the handle id, the next fresh
id, and the handle's (block, index) position. -/
def entryStage (off sz : Nat) (F : Fn) : Fn × Nat × Nat × Nat × Nat :=
  match getPGCstack F with
  | some (bi, ii, pg) =>
      (insertInstsAt F bi (ii + 1) (emitGCSafepoint (maxIdFn F + 1) pg off sz),
       pg, maxIdFn F + 6, bi, ii)
  | none =>
      let m := maxIdFn F
      let fnp := firstNonPHI (blk F 0)
      let F1 := insertInstsAt F 0 fnp [Instr.call (m + 1) .getPGCStack []]
      (insertInstsAt F1 0 (fnp + 1) (emitGCSafepoint (m + 2) (m + 1) off sz),
       m + 1, m + 7, 0, fnp)

/-- `GCSafepoint::runOnFunction`.  `initAll` only re-resolves module
declarations (no effect on the function body).  Entry safepoint first,
then one safepoint per qualifying backedge of every loop of the loop
forest `LI` (preorder); always reports the function modified. -/
def runOnFunction (off sz : Nat) (LI : List Loop) (F : Fn) : Fn × Bool :=
  match entryStage off sz F with
  | (F2, pg, fr, _, _) => ((emitLoops off sz pg (backedges F2 LI) (F2, fr)).1, true)

/-- The (block, index) position at which the pass leaves the GC-state
handle. -/
def handleSite (off sz : Nat) (F : Fn) : Nat × Nat :=
  ((entryStage off sz F).2.2.2.1, (entryStage off sz F).2.2.2.2)

/-- The handle id the pass uses. -/
def handleId (off sz : Nat) (F : Fn) : Nat := (entryStage off sz F).2.1

/-! ## Specification-side observation functions -/

/-- The fixed shape of an emitted safepoint sequence, with the fresh-id
base `f`, handle `pg`, and GEP index `nth` explicit.  Equal to
`emitGCSafepoint f pg off sz` for `nth = nthfield off sz`. -/
def seqList (f pg nth : Nat) : List Instr :=
  [Instr.call f .GCRootFlush [],
   Instr.fence .SequentiallyConsistent .SingleThread,
   Instr.gep (f + 1) pg nth,
   Instr.bitcast (f + 2) (f + 1),
   Instr.load (f + 3) .T_psize (f + 2) false,
   Instr.load (f + 4) .T_size (f + 3) true,
   Instr.fence .SequentiallyConsistent .SingleThread]

theorem emitGCSafepoint_eq (f pg off sz : Nat) :
    emitGCSafepoint f pg off sz = seqList f pg (nthfield off sz) := rfl

/-- The base operand of the GEP of the safepoint sequence starting at
the head of `l` (position 2 of the sequence). -/
def gepBaseAt (l : List Instr) : Option Nat :=
  match l.get? 2 with
  | some (.gep _ b _) => some b
  | _ => none

/-- A safepoint sequence with GEP index `nth` begins at the head of
`l`: its first seven instructions are exactly an emitted sequence, for
the fresh-id base read off the leading call and the handle read off the
GEP. -/
def isSeqAt (nth : Nat) (l : List Instr) : Bool :=
  match l.get? 0, gepBaseAt l with
  | some i0, some pg => l.take 7 == seqList (resOf i0) pg nth
  | _, _ => false

/-- Number of positions of `l` at which a safepoint sequence begins. -/
def countSeqL (nth : Nat) : List Instr → Nat
  | [] => 0
  | x :: l => (if isSeqAt nth (x :: l) then 1 else 0) + countSeqL nth l

/-- Total number of safepoint sequences in a function. -/
def countSeqFn (nth : Nat) (F : Fn) : Nat :=
  (F.blocks.map (fun bb => countSeqL nth bb.insts)).sum

/-- No root-flush calls in the list. -/
def flushFree (l : List Instr) : Bool := l.all (fun x => !isFlush x)

/-- No root-flush calls anywhere in the function (true of any function
the pass has not yet processed). -/
def cleanFn (F : Fn) : Prop := ∀ bb ∈ F.blocks, flushFree bb.insts = true

instance (F : Fn) : Decidable (cleanFn F) := by
  unfold cleanFn; infer_instance

/-- Number of pgcstack-establishing calls in the function. -/
def countPgcFn (F : Fn) : Nat :=
  (F.blocks.map (fun bb => bb.insts.countP (fun i => isPgcCall i))).sum

/-- The index operand of the GEP of the safepoint sequence starting at
the head of `l`. -/
def gepIdxAt (l : List Instr) : Option Nat :=
  match l.get? 2 with
  | some (.gep _ _ i) => some i
  | _ => none

/-- Byte address computed by an inbounds GEP of `idx` pointer-sized
fields over base address `base`. -/
def gepByteAddr (base idx sz : Nat) : Nat := base + idx * sz

/-! ## Sequence-counting machinery -/

theorem isSeqAt_nil (nth : Nat) : isSeqAt nth [] = false := rfl

theorem isSeqAt_cons_not_flush {x : Instr} (nth : Nat) (l : List Instr)
    (hx : isFlush x = false) : isSeqAt nth (x :: l) = false := by
  have hget : (x :: l).get? 0 = some x := rfl
  unfold isSeqAt
  rw [hget]
  cases hgb : gepBaseAt (x :: l) with
  | none => rfl
  | some pg =>
    show ((x :: l).take 7 == seqList (resOf x) pg nth) = false
    cases hb : ((x :: l).take 7 == seqList (resOf x) pg nth) with
    | false => rfl
    | true =>
      exfalso
      have heq := eq_of_beq hb
      have h0 : (x :: l).take 7 = x :: l.take 6 := rfl
      rw [h0, seqList] at heq
      injection heq with h1 _
      have hfl : isFlush x = true := by rw [h1]; rfl
      rw [hfl] at hx
      exact Bool.noConfusion hx

theorem isSeqAt_seq_append (nth f pg : Nat) (l : List Instr) :
    isSeqAt nth (seqList f pg nth ++ l) = true := by
  show ((seqList f pg nth ++ l).take 7 == seqList (resOf (Instr.call f .GCRootFlush [])) pg nth)
      = true
  have h0 : (seqList f pg nth ++ l).take 7 = seqList f pg nth := rfl
  rw [h0]
  exact beq_self_eq_true _

theorem countSeqL_nil (nth : Nat) : countSeqL nth [] = 0 := rfl

theorem countSeqL_cons_not_flush {x : Instr} (nth : Nat) (l : List Instr)
    (hx : isFlush x = false) : countSeqL nth (x :: l) = countSeqL nth l := by
  simp [countSeqL, isSeqAt_cons_not_flush nth l hx]

theorem countSeqL_seq_append (nth f pg : Nat) (l : List Instr) :
    countSeqL nth (seqList f pg nth ++ l) = countSeqL nth l + 1 := by
  have h0 := isSeqAt_seq_append nth f pg l
  simp only [seqList, List.cons_append, List.nil_append] at h0 ⊢
  simp only [countSeqL, h0, if_true]
  rw [@isSeqAt_cons_not_flush (Instr.fence .SequentiallyConsistent .SingleThread) nth _ rfl,
      @isSeqAt_cons_not_flush (Instr.gep (f + 1) pg nth) nth _ rfl,
      @isSeqAt_cons_not_flush (Instr.bitcast (f + 2) (f + 1)) nth _ rfl,
      @isSeqAt_cons_not_flush (Instr.load (f + 3) .T_psize (f + 2) false) nth _ rfl,
      @isSeqAt_cons_not_flush (Instr.load (f + 4) .T_size (f + 3) true) nth _ rfl,
      @isSeqAt_cons_not_flush (Instr.fence .SequentiallyConsistent .SingleThread) nth _ rfl]
  simp
  omega

theorem flushFree_nil : flushFree [] = true := rfl

theorem flushFree_cons {x : Instr} {l : List Instr} :
    flushFree (x :: l) = (!isFlush x && flushFree l) := by
  simp [flushFree]

theorem countSeqL_eq_zero_of_flushFree {l : List Instr} (nth : Nat)
    (h : flushFree l = true) : countSeqL nth l = 0 := by
  induction l with
  | nil => rfl
  | cons x l ih =>
    rw [flushFree_cons, Bool.and_eq_true, Bool.not_eq_true'] at h
    rw [countSeqL_cons_not_flush nth l h.1, ih h.2]

/-- Canonical decomposition of a list into non-flush instructions and
whole emitted safepoint sequences (all with handle `pg` and GEP index
`nth`), recording the number of sequences.  Every list the pass
produces from a clean input is of this shape. -/
inductive SeqView (nth pg : Nat) : List Instr → Nat → Prop where
  | nil : SeqView nth pg [] 0
  | other {x : Instr} {l : List Instr} {k : Nat} (hx : isFlush x = false)
      (h : SeqView nth pg l k) : SeqView nth pg (x :: l) k
  | seq (f : Nat) {l : List Instr} {k : Nat} (h : SeqView nth pg l k) :
      SeqView nth pg (seqList f pg nth ++ l) (k + 1)

theorem SeqView.count {nth pg : Nat} {l : List Instr} {k : Nat}
    (h : SeqView nth pg l k) : countSeqL nth l = k := by
  induction h with
  | nil => rfl
  | other hx _ ih => rw [countSeqL_cons_not_flush _ _ hx, ih]
  | seq f _ ih => rw [countSeqL_seq_append, ih]

theorem SeqView.of_flushFree {nth pg : Nat} {l : List Instr}
    (h : flushFree l = true) : SeqView nth pg l 0 := by
  induction l with
  | nil => exact .nil
  | cons x l ih =>
    rw [flushFree_cons, Bool.and_eq_true, Bool.not_eq_true'] at h
    exact .other h.1 (ih h.2)

theorem SeqView.prepend_flushFree {nth pg : Nat} {p l : List Instr} {k : Nat}
    (hp : flushFree p = true) (h : SeqView nth pg l k) : SeqView nth pg (p ++ l) k := by
  induction p with
  | nil => exact h
  | cons x p ih =>
    rw [flushFree_cons, Bool.and_eq_true, Bool.not_eq_true'] at hp
    exact .other hp.1 (ih hp.2)

theorem SeqView.append_seq {nth pg : Nat} {l : List Instr} {k : Nat}
    (h : SeqView nth pg l k) (f : Nat) : SeqView nth pg (l ++ seqList f pg nth) (k + 1) := by
  induction h with
  | nil => simpa using SeqView.seq f SeqView.nil
  | other hx _ ih => exact .other hx ih
  | seq f' h ih =>
    rw [List.append_assoc]
    exact .seq f' ih

/-- A tail appended by the backedge loop: a concatenation of `n` whole
emitted safepoint sequences (handle `pg`, index `nth`). -/
inductive SeqTail (nth pg : Nat) : List Instr → Nat → Prop where
  | nil : SeqTail nth pg [] 0
  | snoc {t : List Instr} {n : Nat} (f : Nat) (h : SeqTail nth pg t n) :
      SeqTail nth pg (t ++ seqList f pg nth) (n + 1)

theorem SeqView.append_tail {nth pg : Nat} {l t : List Instr} {k n : Nat}
    (h : SeqView nth pg l k) (ht : SeqTail nth pg t n) : SeqView nth pg (l ++ t) (k + n) := by
  induction ht with
  | nil => simpa using h
  | snoc f _ ih =>
    rw [← List.append_assoc]
    exact ih.append_seq f

/-! ## Block-indexing and frame lemmas for the primitive mutations -/

theorem blk_set_self {F : Fn} {b : Nat} (bb : BB) (h : b < F.blocks.length) :
    blk ⟨F.blocks.set b bb⟩ b = bb := by
  simp [blk, List.getD, List.getElem?_set_self', List.getElem?_eq_getElem h]

theorem blk_set_other {F : Fn} {b b' : Nat} (bb : BB) (h : b' ≠ b) :
    blk ⟨F.blocks.set b bb⟩ b' = blk F b' := by
  simp [blk, List.getD, List.getElem?_set_ne (fun he => h he.symm)]

theorem length_insertInstsAt (F : Fn) (b i : Nat) (new : List Instr) :
    (insertInstsAt F b i new).blocks.length = F.blocks.length := by
  simp [insertInstsAt]

theorem length_appendToBlock (F : Fn) (b : Nat) (new : List Instr) :
    (appendToBlock F b new).blocks.length = F.blocks.length := by
  simp [appendToBlock]

theorem blk_insertInstsAt_self {F : Fn} {b : Nat} (i : Nat) (new : List Instr)
    (h : b < F.blocks.length) :
    blk (insertInstsAt F b i new) b
      = { blk F b with insts := (blk F b).insts.take i ++ new ++ (blk F b).insts.drop i } := by
  simp [insertInstsAt, blk_set_self _ h]

theorem blk_insertInstsAt_other {F : Fn} {b b' : Nat} (i : Nat) (new : List Instr)
    (h : b' ≠ b) : blk (insertInstsAt F b i new) b' = blk F b' := by
  simp [insertInstsAt, blk_set_other _ h]

theorem blk_appendToBlock_self {F : Fn} {b : Nat} (new : List Instr)
    (h : b < F.blocks.length) :
    blk (appendToBlock F b new) b = { blk F b with insts := (blk F b).insts ++ new } := by
  simp [appendToBlock, blk_set_self _ h]

theorem blk_appendToBlock_other {F : Fn} {b b' : Nat} (new : List Instr)
    (h : b' ≠ b) : blk (appendToBlock F b new) b' = blk F b' := by
  simp [appendToBlock, blk_set_other _ h]

theorem term_insertInstsAt (F : Fn) (b i : Nat) (new : List Instr) (b' : Nat) :
    (blk (insertInstsAt F b i new) b').term = (blk F b').term := by
  by_cases h : b' = b
  · subst h
    by_cases hb : b' < F.blocks.length
    · rw [blk_insertInstsAt_self i new hb]
    · simp [insertInstsAt, blk, List.set_eq_of_length_le (Nat.le_of_not_lt hb)]
  · rw [blk_insertInstsAt_other i new h]

theorem term_appendToBlock (F : Fn) (b : Nat) (new : List Instr) (b' : Nat) :
    (blk (appendToBlock F b new) b').term = (blk F b').term := by
  by_cases h : b' = b
  · subst h
    by_cases hb : b' < F.blocks.length
    · rw [blk_appendToBlock_self new hb]
    · simp [appendToBlock, blk, List.set_eq_of_length_le (Nat.le_of_not_lt hb)]
  · rw [blk_appendToBlock_other new h]

/-! ## flush-free and pgc-free helper predicates -/

/-- No pgcstack-establishing calls in the list. -/
def pgcFreeL (l : List Instr) : Bool := l.all (fun x => !isPgcCall x)

theorem flushFree_append {l₁ l₂ : List Instr} :
    flushFree (l₁ ++ l₂) = (flushFree l₁ && flushFree l₂) := by
  simp [flushFree]

theorem flushFree_of_sublist {l₁ l₂ : List Instr} (h : l₁.Sublist l₂)
    (hf : flushFree l₂ = true) : flushFree l₁ = true := by
  simp only [flushFree, List.all_eq_true] at hf ⊢
  exact fun x hx => hf x (h.subset hx)

theorem flushFree_take {l : List Instr} (i : Nat) (hf : flushFree l = true) :
    flushFree (l.take i) = true :=
  flushFree_of_sublist (List.take_sublist i l) hf

theorem flushFree_drop {l : List Instr} (i : Nat) (hf : flushFree l = true) :
    flushFree (l.drop i) = true :=
  flushFree_of_sublist (List.drop_sublist i l) hf

theorem pgcFreeL_seqList (f pg nth : Nat) : pgcFreeL (seqList f pg nth) = true := by
  simp [pgcFreeL, seqList, isPgcCall]

theorem pgcFreeL_append {l₁ l₂ : List Instr} :
    pgcFreeL (l₁ ++ l₂) = (pgcFreeL l₁ && pgcFreeL l₂) := by
  simp [pgcFreeL]

theorem SeqTail.pgcFree {nth pg : Nat} {t : List Instr} {n : Nat}
    (h : SeqTail nth pg t n) : pgcFreeL t = true := by
  induction h with
  | nil => rfl
  | snoc f _ ih => rw [pgcFreeL_append, ih, pgcFreeL_seqList]; rfl

/-! ## Freshness: ids above `maxIdFn` do not occur in the function -/

theorem le_foldr_max {l : List Nat} {x : Nat} (hx : x ∈ l) : x ≤ l.foldr Nat.max 0 := by
  induction l with
  | nil => cases hx
  | cons y l ih =>
    rcases List.mem_cons.mp hx with h | h
    · subst h; exact Nat.le_max_left _ _
    · exact Nat.le_trans (ih h) (Nat.le_max_right _ _)

theorem usedIds_le_maxIdFn {F : Fn} {u : Nat} (hu : u ∈ usedIds F) : u ≤ maxIdFn F := by
  apply le_foldr_max
  simp only [usedIds, List.mem_flatMap, List.mem_append] at hu
  obtain ⟨bb, hbb, hin⟩ := hu
  simp only [maxIdFn, List.mem_flatMap]
  refine ⟨bb, hbb, ?_⟩
  rcases hin with h | h
  · obtain ⟨ins, hins, hid⟩ := h
    exact List.mem_append.mpr (Or.inl (List.mem_flatMap.mpr ⟨ins, hins, List.mem_cons_of_mem _ hid⟩))
  · exact List.mem_append.mpr (Or.inr h)

theorem resOf_le_maxIdFn {F : Fn} {bb : BB} {ins : Instr} (hbb : bb ∈ F.blocks)
    (hins : ins ∈ bb.insts) : resOf ins ≤ maxIdFn F := by
  apply le_foldr_max
  simp only [maxIdFn, List.mem_flatMap]
  exact ⟨bb, hbb, List.mem_append.mpr (Or.inl (List.mem_flatMap.mpr ⟨ins, hins, List.mem_cons_self _ _⟩))⟩

/-! ## Characterization of the GC-state locator scan -/

theorem findPgcIn_none_iff {l : List Instr} : findPgcIn l = none ↔ pgcFreeL l = true := by
  induction l with
  | nil => simp [findPgcIn, pgcFreeL]
  | cons x l ih =>
    by_cases hx : isPgcCall x = true
    · simp [findPgcIn, hx, pgcFreeL]
    · rw [Bool.not_eq_true] at hx
      simp [findPgcIn, hx, pgcFreeL, Option.map_eq_none] at ih ⊢
      exact ih

theorem findPgcIn_spec {l : List Instr} {i : Nat} {r : Nat}
    (h : findPgcIn l = some (i, r)) :
    i < l.length ∧ pgcFreeL (l.take i) = true ∧
    isPgcCall (l.getD i default) = true ∧ resOf (l.getD i default) = r := by
  induction l generalizing i with
  | nil => cases h
  | cons x l ih =>
    by_cases hx : isPgcCall x = true
    · rw [findPgcIn, if_pos hx] at h
      injection h with h'
      injection h' with h1 h2
      subst h1; subst h2
      exact ⟨Nat.succ_pos _, rfl, hx, rfl⟩
    · rw [Bool.not_eq_true] at hx
      rw [findPgcIn, if_neg (by rw [hx]; exact Bool.false_ne_true)] at h
      cases hrec : findPgcIn l with
      | none => rw [hrec] at h; cases h
      | some p =>
        obtain ⟨i', r'⟩ := p
        rw [hrec] at h
        simp only [Option.map_some'] at h
        injection h with h'
        injection h' with h1 h2
        subst h2
        obtain ⟨hlt, hfree, hpgc, hres⟩ := ih hrec
        subst h1
        refine ⟨Nat.succ_lt_succ hlt, ?_, by simpa [List.getD_cons_succ] using hpgc,
          by simpa [List.getD_cons_succ] using hres⟩
        simp [List.take_succ_cons, pgcFreeL, hx] at hfree ⊢
        simpa [pgcFreeL] using hfree

theorem findPgcIn_at_first_pgc {p : List Instr} {x : Instr} (hp : pgcFreeL p = true)
    (hx : isPgcCall x = true) (rest : List Instr) :
    findPgcIn (p ++ x :: rest) = some (p.length, resOf x) := by
  induction p with
  | nil => simp [findPgcIn, hx]
  | cons y p ih =>
    simp only [pgcFreeL, List.all_cons, Bool.and_eq_true, Bool.not_eq_true'] at hp
    rw [List.cons_append, findPgcIn, if_neg (by rw [hp.1]; exact Bool.false_ne_true)]
    rw [ih (by simp [pgcFreeL, hp.2])]
    rfl

theorem findPgcIn_append_pgcFree {l t : List Instr} (ht : pgcFreeL t = true) :
    findPgcIn (l ++ t) = findPgcIn l := by
  induction l with
  | nil => simp [findPgcIn_none_iff.mpr ht, findPgcIn]
  | cons x l ih =>
    by_cases hx : isPgcCall x = true
    · simp [findPgcIn, hx]
    · rw [Bool.not_eq_true] at hx
      simp [findPgcIn, hx, ih]

theorem getPGCgo_spec : ∀ {n : Nat} {bs : List BB} {bi ii : Nat} {pg : Nat},
    getPGCgo n bs = some (bi, ii, pg) →
    n ≤ bi ∧ bi - n < bs.length ∧
    findPgcIn (bs.getD (bi - n) default).insts = some (ii, pg) ∧
    ∀ j < bi - n, findPgcIn (bs.getD j default).insts = none := by
  intro n bs
  induction bs generalizing n with
  | nil => intro bi ii pg h; cases h
  | cons bb rest ih =>
    intro bi ii pg h
    rw [getPGCgo] at h
    cases hf : findPgcIn bb.insts with
    | some p =>
      rw [hf] at h
      obtain ⟨i, r⟩ := p
      injection h with h'
      injection h' with h1 h2
      subst h1
      refine ⟨Nat.le_refl _, by simp, ?_, ?_⟩
      · simpa [Nat.sub_self] using (h2 ▸ hf)
      · intro j hj
        omega
    | none =>
      rw [hf] at h
      obtain ⟨hle, hlt, hfind, hpre⟩ := ih h
      have hn : n < bi := Nat.lt_of_succ_le hle
      have hsub : bi - n = (bi - (n + 1)) + 1 := by omega
      refine ⟨Nat.le_of_lt hn, by simp; omega, ?_, ?_⟩
      · rw [hsub]; simpa using hfind
      · intro j hj
        cases j with
        | zero => simpa using hf
        | succ j' =>
          have : j' < bi - (n + 1) := by omega
          simpa using hpre j' this

theorem getPGCgo_none_iff : ∀ {n : Nat} {bs : List BB},
    getPGCgo n bs = none ↔ ∀ bb ∈ bs, findPgcIn bb.insts = none := by
  intro n bs
  induction bs generalizing n with
  | nil => simp [getPGCgo]
  | cons bb rest ih =>
    rw [getPGCgo]
    cases hf : findPgcIn bb.insts with
    | some p => simp [hf]
    | none => simp [hf, ih]

theorem getPGCstack_spec {F : Fn} {bi ii : Nat} {pg : Nat}
    (h : getPGCstack F = some (bi, ii, pg)) :
    bi < F.blocks.length ∧ findPgcIn (blk F bi).insts = some (ii, pg) ∧
    ∀ j < bi, findPgcIn (blk F j).insts = none := by
  obtain ⟨_, hlt, hfind, hpre⟩ := getPGCgo_spec h
  rw [Nat.sub_zero] at hlt hfind
  exact ⟨hlt, hfind, fun j hj => hpre j (by omega)⟩

theorem getPGCgo_congr : ∀ (n : Nat) (bs bs' : List BB), bs.length = bs'.length →
    (∀ j, findPgcIn (bs.getD j default).insts = findPgcIn (bs'.getD j default).insts) →
    getPGCgo n bs = getPGCgo n bs' := by
  intro n bs
  induction bs generalizing n with
  | nil =>
    intro bs' hlen _
    cases bs' with
    | nil => rfl
    | cons _ _ => cases hlen
  | cons bb rest ih =>
    intro bs' hlen hpt
    cases bs' with
    | nil => cases hlen
    | cons bb' rest' =>
      have h0 : findPgcIn bb.insts = findPgcIn bb'.insts := by simpa using hpt 0
      rw [getPGCgo, getPGCgo, ← h0]
      cases hf : findPgcIn bb.insts with
      | some p => rfl
      | none =>
        exact ih (n + 1) rest' (by simpa using hlen) (fun j => by simpa using hpt (j + 1))

theorem getPGCstack_congr {F F' : Fn} (hlen : F'.blocks.length = F.blocks.length)
    (hpt : ∀ j, findPgcIn (blk F' j).insts = findPgcIn (blk F j).insts) :
    getPGCstack F' = getPGCstack F :=
  getPGCgo_congr 0 F'.blocks F.blocks hlen hpt

theorem take_succ_getD {l : List Instr} {i : Nat} (h : i < l.length) :
    l.take (i + 1) = l.take i ++ [l.getD i default] := by
  rw [List.take_succ]
  congr 1
  simp [List.get?_eq_getElem?, List.getElem?_eq_getElem h, List.getD_eq_getElem _ _ h]

/-! ## The backedge emission loop -/

theorem SeqTail.cons {nth pg : Nat} {t : List Instr} {n : Nat} (f : Nat)
    (h : SeqTail nth pg t n) : SeqTail nth pg (seqList f pg nth ++ t) (n + 1) := by
  induction h with
  | nil => simpa using SeqTail.snoc f SeqTail.nil
  | snoc f₂ _ ih =>
    rw [← List.append_assoc]
    exact ih.snoc f₂

theorem countSeqL_prepend_flushFree {p l : List Instr} (nth : Nat)
    (hp : flushFree p = true) : countSeqL nth (p ++ l) = countSeqL nth l := by
  induction p with
  | nil => rfl
  | cons x p ih =>
    rw [flushFree_cons, Bool.and_eq_true, Bool.not_eq_true'] at hp
    rw [List.cons_append, countSeqL_cons_not_flush nth _ hp.1, ih hp.2]

theorem sum_map_set_add {α : Type} (d : α) (g : α → Nat) :
    ∀ (l : List α) (b : Nat) (x : α) (c : Nat), b < l.length →
    g x = g (l.getD b d) + c → ((l.set b x).map g).sum = (l.map g).sum + c := by
  intro l
  induction l with
  | nil => intro b x c hb; cases hb
  | cons y l ih =>
    intro b x c hb hg
    cases b with
    | zero =>
      simp only [List.getD_cons_zero] at hg
      simp [List.set_cons_zero, hg]
      omega
    | succ b' =>
      simp only [List.getD_cons_succ] at hg
      have hb' : b' < l.length := Nat.lt_of_succ_lt_succ hb
      have h2 := ih b' x c hb' hg
      simp only [List.set_cons_succ, List.map_cons, List.sum_cons, h2]
      omega

/-- Frame/decomposition of the backedge loop: lengths and terminators
unchanged, and each block receives, appended before its terminator, a
tail consisting of exactly one whole safepoint sequence per occurrence
of its index in the backedge list. -/
theorem emitLoops_spec (off sz pg : Nat) : ∀ (bs : List Nat) (F : Fn) (fr : Nat),
    (∀ b ∈ bs, b < F.blocks.length) →
    (emitLoops off sz pg bs (F, fr)).1.blocks.length = F.blocks.length ∧
    (∀ b, (blk (emitLoops off sz pg bs (F, fr)).1 b).term = (blk F b).term) ∧
    (∀ b, ∃ t, SeqTail (nthfield off sz) pg t (bs.count b) ∧
      (blk (emitLoops off sz pg bs (F, fr)).1 b).insts = (blk F b).insts ++ t) := by
  intro bs
  induction bs with
  | nil =>
    intro F fr _
    exact ⟨rfl, fun _ => rfl, fun b => ⟨[], by simpa using SeqTail.nil, by simp [emitLoops]⟩⟩
  | cons b₀ bs ih =>
    intro F fr hbs
    have hb₀ : b₀ < F.blocks.length := hbs b₀ (List.mem_cons_self _ _)
    have hF' : ∀ b ∈ bs, b < (appendToBlock F b₀ (emitGCSafepoint fr pg off sz)).blocks.length := by
      intro b hb
      rw [length_appendToBlock]
      exact hbs b (List.mem_cons_of_mem _ hb)
    obtain ⟨hlen, hterm, hdec⟩ := ih (appendToBlock F b₀ (emitGCSafepoint fr pg off sz)) (fr + 5) hF'
    rw [show emitLoops off sz pg (b₀ :: bs) (F, fr)
        = emitLoops off sz pg bs (appendToBlock F b₀ (emitGCSafepoint fr pg off sz), fr + 5)
      from rfl]
    refine ⟨by rw [hlen, length_appendToBlock], ?_, ?_⟩
    · intro b
      rw [hterm b, term_appendToBlock]
    · intro b
      obtain ⟨t, hst, hins⟩ := hdec b
      by_cases hbb : b = b₀
      · subst hbb
        refine ⟨emitGCSafepoint fr pg off sz ++ t, ?_, ?_⟩
        · rw [List.count_cons_self, emitGCSafepoint_eq]
          exact hst.cons fr
        · rw [hins, blk_appendToBlock_self _ hb₀, List.append_assoc]
      · refine ⟨t, ?_, ?_⟩
        · rw [List.count_cons_of_ne hbb]
          exact hst
        · rw [hins, blk_appendToBlock_other _ hbb]

/-- Total sequence count added by the backedge loop: one per backedge
list entry. -/
theorem emitLoops_total (off sz pg : Nat) : ∀ (bs : List Nat) (F : Fn) (fr : Nat),
    (∀ b ∈ bs, b < F.blocks.length) →
    (∀ b, ∃ k, SeqView (nthfield off sz) pg (blk F b).insts k) →
    countSeqFn (nthfield off sz) (emitLoops off sz pg bs (F, fr)).1
      = countSeqFn (nthfield off sz) F + bs.length := by
  intro bs
  induction bs with
  | nil => intro F fr _ _; rfl
  | cons b₀ bs ih =>
    intro F fr hbs hview
    have hb₀ : b₀ < F.blocks.length := hbs b₀ (List.mem_cons_self _ _)
    obtain ⟨k, hk⟩ := hview b₀
    have hstep : countSeqFn (nthfield off sz) (appendToBlock F b₀ (emitGCSafepoint fr pg off sz))
        = countSeqFn (nthfield off sz) F + 1 := by
      apply sum_map_set_add default _ F.blocks b₀ _ 1 hb₀
      show countSeqL (nthfield off sz) ((blk F b₀).insts ++ emitGCSafepoint fr pg off sz)
          = countSeqL (nthfield off sz) (blk F b₀).insts + 1
      rw [emitGCSafepoint_eq, (hk.append_seq fr).count, hk.count]
    have hview' : ∀ b, ∃ k,
        SeqView (nthfield off sz) pg (blk (appendToBlock F b₀ (emitGCSafepoint fr pg off sz)) b).insts k := by
      intro b
      by_cases hbb : b = b₀
      · subst hbb
        rw [blk_appendToBlock_self _ hb₀]
        exact ⟨k + 1, by rw [emitGCSafepoint_eq] at *; exact hk.append_seq fr⟩
      · rw [blk_appendToBlock_other _ hbb]
        exact hview b
    have hF' : ∀ b ∈ bs, b < (appendToBlock F b₀ (emitGCSafepoint fr pg off sz)).blocks.length := by
      intro b hb
      rw [length_appendToBlock]
      exact hbs b (List.mem_cons_of_mem _ hb)
    rw [show emitLoops off sz pg (b₀ :: bs) (F, fr)
        = emitLoops off sz pg bs (appendToBlock F b₀ (emitGCSafepoint fr pg off sz), fr + 5)
      from rfl]
    rw [ih _ (fr + 5) hF' hview', hstep, List.length_cons]
    omega

/-! ## Generic list position helpers -/

theorem take_append_cons {α : Type} (A : List α) (c : α) (B : List α) :
    (A ++ c :: B).take (A.length + 1) = A ++ [c] := by
  rw [List.take_append_eq_append_take]
  simp

theorem drop_append_cons {α : Type} (A : List α) (c : α) (B : List α) :
    (A ++ c :: B).drop (A.length + 1) = B := by
  rw [List.drop_append_eq_append_drop]
  simp

theorem getD_append_cons {α : Type} (A : List α) (c : α) (B : List α) (d : α) :
    (A ++ c :: B).getD A.length d = c := by
  induction A with
  | nil => rfl
  | cons x A ih => simpa [List.getD_cons_succ] using ih

theorem drop_append_of_le {α : Type} {l₁ : List α} (l₂ : List α) {n : Nat}
    (h : n ≤ l₁.length) : (l₁ ++ l₂).drop n = l₁.drop n ++ l₂ := by
  rw [List.drop_append_eq_append_drop]
  simp [Nat.sub_eq_zero_of_le h]

theorem getD_append_of_lt {α : Type} {l₁ : List α} (l₂ : List α) {n : Nat} (d : α)
    (h : n < l₁.length) : (l₁ ++ l₂).getD n d = l₁.getD n d := by
  induction l₁ generalizing n with
  | nil => cases h
  | cons x l ih =>
    cases n with
    | zero => rfl
    | succ n' => simpa [List.getD_cons_succ] using ih (Nat.lt_of_succ_lt_succ h)

theorem blk_mem {F : Fn} {b : Nat} (h : b < F.blocks.length) : blk F b ∈ F.blocks := by
  rw [blk, List.getD_eq_getElem _ _ h]
  exact List.getElem_mem h

theorem blk_default_of_le {F : Fn} {b : Nat} (h : F.blocks.length ≤ b) :
    blk F b = default := by
  simp [blk, List.getD_eq_getElem?_getD, List.getElem?_eq_none h]

theorem pgcFree_of_sublist {l₁ l₂ : List Instr} (h : l₁.Sublist l₂)
    (hf : pgcFreeL l₂ = true) : pgcFreeL l₁ = true := by
  simp only [pgcFreeL, List.all_eq_true] at hf ⊢
  exact fun x hx => hf x (h.subset hx)

theorem getPGCstack_of_entry_found {F : Fn} {i : Nat} {r : Nat}
    (h0 : 0 < F.blocks.length) (hf : findPgcIn (blk F 0).insts = some (i, r)) :
    getPGCstack F = some (0, i, r) := by
  unfold getPGCstack
  cases hbs : F.blocks with
  | nil => rw [hbs] at h0; cases h0
  | cons bb rest =>
    have : blk F 0 = bb := by rw [blk, hbs]; rfl
    rw [this] at hf
    rw [getPGCgo, hf]

/-! ## Backedge enumeration facts -/

theorem backedges_lt {F : Fn} {LI : List Loop} : ∀ x ∈ backedges F LI, x < F.blocks.length := by
  intro x hx
  unfold backedges at hx
  obtain ⟨L, _, hx2⟩ := List.mem_flatMap.mp hx
  unfold backedgeSrcs at hx2
  have hx3 := List.mem_of_mem_filter hx2
  unfold predOccs at hx3
  obtain ⟨b, hb, hx4⟩ := List.mem_flatMap.mp hx3
  obtain ⟨s, _, hs⟩ := List.mem_filterMap.mp hx4
  by_cases hc : s = L.header
  · rw [if_pos hc] at hs
    injection hs with h
    subst h
    exact List.mem_range.mp hb
  · rw [if_neg hc] at hs
    cases hs

theorem backedges_congr {F F' : Fn} (LI : List Loop)
    (hlen : F'.blocks.length = F.blocks.length)
    (hterm : ∀ b, (blk F' b).term = (blk F b).term) :
    backedges F' LI = backedges F LI := by
  unfold backedges backedgeSrcs predOccs
  rw [hlen]
  simp only [hterm]

/-! ## The pass invariant: every block decomposes into non-flush code
and whole safepoint sequences -/

/-- Every block of `F` (and the default block) has a `SeqView`
decomposition with handle `pg`. -/
def SeqViewAll (nth pg : Nat) (F : Fn) : Prop :=
  ∀ b, ∃ k, SeqView nth pg (blk F b).insts k

/-- Shape of a function whose GC-state handle sits at block `bi`,
index `ii`: everything up to and including the handle is flush-free,
and everything after it (and every other block) is non-flush code
interleaved with whole safepoint sequences for handle `pg`. -/
def HypSome (nth pg : Nat) (F : Fn) (bi ii : Nat) : Prop :=
  flushFree ((blk F bi).insts.take (ii + 1)) = true ∧
  (∃ k, SeqView nth pg ((blk F bi).insts.drop (ii + 1)) k) ∧
  (∀ b, b ≠ bi → ∃ k, SeqView nth pg (blk F b).insts k)

/-- Input shapes on which the pass's effect is exactly characterized:
either no handle exists and the function is flush-free, or a handle
exists and the function has the `HypSome` shape around it.  Holds for
every clean function and is preserved by the pass. -/
def HypGood (nth : Nat) (F : Fn) : Prop :=
  match getPGCstack F with
  | none => ∀ b, flushFree (blk F b).insts = true
  | some (bi, ii, pg) => HypSome nth pg F bi ii

theorem hypGood_of_clean {nth : Nat} {F : Fn} (hc : cleanFn F) : HypGood nth F := by
  have hall : ∀ b, flushFree (blk F b).insts = true := by
    intro b
    by_cases hb : b < F.blocks.length
    · exact hc _ (blk_mem hb)
    · rw [blk_default_of_le (Nat.le_of_not_lt hb)]; rfl
  cases hgp : getPGCstack F with
  | none => unfold HypGood; rw [hgp]; exact hall
  | some s =>
    obtain ⟨bi, ii, pg⟩ := s
    unfold HypGood
    rw [hgp]
    exact ⟨flushFree_take _ (hall bi),
      ⟨0, SeqView.of_flushFree (flushFree_drop _ (hall bi))⟩,
      fun b _ => ⟨0, SeqView.of_flushFree (hall b)⟩⟩

/-- Every safepoint-sequence occurrence inside a `SeqView` list reads
its GEP base from `pg` and its GEP index from `nth`. -/
theorem SeqView.occ {nth pg : Nat} {l : List Instr} {k : Nat} (h : SeqView nth pg l k) :
    ∀ i, isSeqAt nth (l.drop i) = true →
      gepBaseAt (l.drop i) = some pg ∧ gepIdxAt (l.drop i) = some nth := by
  induction h with
  | nil =>
    intro i hi
    rw [List.drop_nil, isSeqAt_nil] at hi
    cases hi
  | other hx _ ih =>
    intro i hi
    cases i with
    | zero =>
      rw [List.drop_zero] at hi
      rw [isSeqAt_cons_not_flush _ _ hx] at hi
      cases hi
    | succ i' =>
      rw [List.drop_succ_cons] at hi ⊢
      exact ih i' hi
  | seq f _ ih =>
    intro i hi
    rename_i l' k' _
    rcases i with _ | _ | _ | _ | _ | _ | _ | j
    · exact ⟨rfl, rfl⟩
    · rw [show (seqList f pg nth ++ l').drop 1
          = Instr.fence .SequentiallyConsistent .SingleThread ::
            (seqList f pg nth ++ l').drop 2 from rfl,
        @isSeqAt_cons_not_flush (Instr.fence .SequentiallyConsistent .SingleThread) nth _ rfl]
        at hi
      cases hi
    · rw [show (seqList f pg nth ++ l').drop 2
          = Instr.gep (f + 1) pg nth :: (seqList f pg nth ++ l').drop 3 from rfl,
        @isSeqAt_cons_not_flush (Instr.gep (f + 1) pg nth) nth _ rfl] at hi
      cases hi
    · rw [show (seqList f pg nth ++ l').drop 3
          = Instr.bitcast (f + 2) (f + 1) :: (seqList f pg nth ++ l').drop 4 from rfl,
        @isSeqAt_cons_not_flush (Instr.bitcast (f + 2) (f + 1)) nth _ rfl] at hi
      cases hi
    · rw [show (seqList f pg nth ++ l').drop 4
          = Instr.load (f + 3) .T_psize (f + 2) false :: (seqList f pg nth ++ l').drop 5 from rfl,
        @isSeqAt_cons_not_flush (Instr.load (f + 3) .T_psize (f + 2) false) nth _ rfl] at hi
      cases hi
    · rw [show (seqList f pg nth ++ l').drop 5
          = Instr.load (f + 4) .T_size (f + 3) true :: (seqList f pg nth ++ l').drop 6 from rfl,
        @isSeqAt_cons_not_flush (Instr.load (f + 4) .T_size (f + 3) true) nth _ rfl] at hi
      cases hi
    · rw [show (seqList f pg nth ++ l').drop 6
          = Instr.fence .SequentiallyConsistent .SingleThread :: l' from rfl,
        @isSeqAt_cons_not_flush (Instr.fence .SequentiallyConsistent .SingleThread) nth _ rfl]
        at hi
      cases hi
    · rw [show (seqList f pg nth ++ l').drop (j + 7) = l'.drop j from rfl] at hi ⊢
      exact ih j hi

/-! ## Characterization of the entry stage -/

theorem entryStage_some {off sz : Nat} {F : Fn} {bi ii : Nat} {pg : Nat}
    (hs : getPGCstack F = some (bi, ii, pg)) :
    entryStage off sz F
      = (insertInstsAt F bi (ii + 1) (seqList (maxIdFn F + 1) pg (nthfield off sz)),
         pg, maxIdFn F + 6, bi, ii) := by
  rw [entryStage, hs]
  rfl

theorem entryStage_none {off sz : Nat} {F : Fn} (hs : getPGCstack F = none) :
    entryStage off sz F
      = (insertInstsAt
           (insertInstsAt F 0 (firstNonPHI (blk F 0))
             [Instr.call (maxIdFn F + 1) .getPGCStack []])
           0 (firstNonPHI (blk F 0) + 1)
           (seqList (maxIdFn F + 2) (maxIdFn F + 1) (nthfield off sz)),
         maxIdFn F + 1, maxIdFn F + 7, 0, firstNonPHI (blk F 0)) := by
  rw [entryStage, hs]
  rfl

theorem handleSite_some {off sz : Nat} {F : Fn} {bi ii : Nat} {pg : Nat}
    (hs : getPGCstack F = some (bi, ii, pg)) : handleSite off sz F = (bi, ii) := by
  simp [handleSite, entryStage_some hs]

theorem handleId_some {off sz : Nat} {F : Fn} {bi ii : Nat} {pg : Nat}
    (hs : getPGCstack F = some (bi, ii, pg)) : handleId off sz F = pg := by
  simp [handleId, entryStage_some hs]

theorem handleSite_none {off sz : Nat} {F : Fn} (hs : getPGCstack F = none) :
    handleSite off sz F = (0, firstNonPHI (blk F 0)) := by
  simp [handleSite, entryStage_none hs]

theorem handleId_none {off sz : Nat} {F : Fn} (hs : getPGCstack F = none) :
    handleId off sz F = maxIdFn F + 1 := by
  simp [handleId, entryStage_none hs]

/-- Everything the claims need about the state after the entry
safepoint has been emitted, when the GC-state handle pre-exists at
`(bi, ii)`. -/
theorem entryStage_main_some (off sz : Nat) (F : Fn) (bi ii : Nat) (pg : Nat)
    (hs : getPGCstack F = some (bi, ii, pg))
    (hH : HypSome (nthfield off sz) pg F bi ii) :
    (entryStage off sz F).1.blocks.length = F.blocks.length ∧
    (∀ b, (blk (entryStage off sz F).1 b).term = (blk F b).term) ∧
    countSeqFn (nthfield off sz) (entryStage off sz F).1
      = countSeqFn (nthfield off sz) F + 1 ∧
    getPGCstack (entryStage off sz F).1 = some (bi, ii, pg) ∧
    bi < F.blocks.length ∧
    flushFree ((blk (entryStage off sz F).1 bi).insts.take (ii + 1)) = true ∧
    (∃ f rest, (blk (entryStage off sz F).1 bi).insts.drop (ii + 1)
        = seqList f pg (nthfield off sz) ++ rest ∧
      ∃ k, SeqView (nthfield off sz) pg rest k) ∧
    (∀ b, b ≠ bi → ∃ k, SeqView (nthfield off sz) pg (blk (entryStage off sz F).1 b).insts k) ∧
    isPgcCall ((blk (entryStage off sz F).1 bi).insts.getD ii default) = true ∧
    resOf ((blk (entryStage off sz F).1 bi).insts.getD ii default) = pg := by
  obtain ⟨Hfree, ⟨k₀, Hdrop⟩, Hother⟩ := hH
  obtain ⟨hbi, hfind, _⟩ := getPGCstack_spec hs
  obtain ⟨hii, hfree₀, hpgc, hres⟩ := findPgcIn_spec hfind
  have hE := @entryStage_some off sz _ _ _ _ hs
  rw [hE]
  show _ ∧ _ ∧ countSeqFn _ (insertInstsAt F bi (ii + 1) _) = _ ∧
    getPGCstack (insertInstsAt F bi (ii + 1) _) = _ ∧ _
  set nth := nthfield off sz with hnth
  set m := maxIdFn F with hm
  set I : List Instr := (blk F bi).insts with hI
  set S : List Instr := seqList (m + 1) pg nth with hS
  have hblk : blk (insertInstsAt F bi (ii + 1) S) bi
      = { blk F bi with insts := I.take (ii + 1) ++ S ++ I.drop (ii + 1) } :=
    blk_insertInstsAt_self _ _ hbi
  have hlen_take : (I.take (ii + 1)).length = ii + 1 := by
    rw [List.length_take]
    omega
  have htake : (I.take (ii + 1) ++ S ++ I.drop (ii + 1)).take (ii + 1) = I.take (ii + 1) := by
    rw [List.append_assoc, List.take_append_of_le_length (Nat.le_of_eq hlen_take.symm)]
    rw [List.take_take]
    simp
  have hdrop : (I.take (ii + 1) ++ S ++ I.drop (ii + 1)).drop (ii + 1)
      = S ++ I.drop (ii + 1) := by
    rw [List.append_assoc, drop_append_of_le _ (Nat.le_of_eq hlen_take.symm)]
    rw [List.drop_eq_nil_of_le (Nat.le_of_eq hlen_take)]
    rfl
  have hsplit : I.take (ii + 1) = I.take ii ++ [I.getD ii default] := take_succ_getD hii
  have hfind2 : findPgcIn (I.take (ii + 1) ++ S ++ I.drop (ii + 1)) = some (ii, pg) := by
    rw [hsplit]
    rw [show (I.take ii ++ [I.getD ii default]) ++ S ++ I.drop (ii + 1)
        = I.take ii ++ (I.getD ii default) :: (S ++ I.drop (ii + 1)) by
      simp [List.append_assoc]]
    rw [findPgcIn_at_first_pgc hfree₀ hpgc, List.length_take, hres]
    congr 2
    omega
  have hgetD : (I.take (ii + 1) ++ S ++ I.drop (ii + 1)).getD ii default
      = I.getD ii default := by
    rw [hsplit]
    rw [show (I.take ii ++ [I.getD ii default]) ++ S ++ I.drop (ii + 1)
        = I.take ii ++ (I.getD ii default) :: (S ++ I.drop (ii + 1)) by
      simp [List.append_assoc]]
    have hlii : (I.take ii).length = ii := by rw [List.length_take]; omega
    have h2 := getD_append_cons (I.take ii) (I.getD ii default) (S ++ I.drop (ii + 1)) default
    rwa [hlii] at h2
  refine ⟨length_insertInstsAt F bi (ii + 1) S,
    fun b => term_insertInstsAt F bi (ii + 1) S b, ?_, ?_, hbi, ?_, ?_, ?_, ?_, ?_⟩
  · -- the entry emission adds exactly one sequence
    apply sum_map_set_add default _ F.blocks bi _ 1 hbi
    show countSeqL nth (I.take (ii + 1) ++ S ++ I.drop (ii + 1))
        = countSeqL nth (blk F bi).insts + 1
    rw [List.append_assoc, countSeqL_prepend_flushFree nth Hfree, hS, countSeqL_seq_append]
    rw [show (blk F bi).insts = I from rfl]
    conv_rhs => rw [← List.take_append_drop (ii + 1) I]
    rw [countSeqL_prepend_flushFree nth Hfree]
  · -- the locator finds the same handle afterwards
    refine Eq.trans (getPGCstack_congr (length_insertInstsAt F bi (ii + 1) S) ?_) hs
    intro j
    by_cases hj : j = bi
    · subst hj
      rw [hblk]
      exact hfind2.trans hfind.symm
    · rw [blk_insertInstsAt_other _ _ hj]
  · rw [hblk]
    show flushFree ((I.take (ii + 1) ++ S ++ I.drop (ii + 1)).take (ii + 1)) = true
    rw [htake]
    exact Hfree
  · refine ⟨m + 1, I.drop (ii + 1), ?_, ⟨k₀, Hdrop⟩⟩
    rw [hblk]
    show (I.take (ii + 1) ++ S ++ I.drop (ii + 1)).drop (ii + 1) = S ++ I.drop (ii + 1)
    exact hdrop
  · intro b hb
    rw [blk_insertInstsAt_other _ _ hb]
    exact Hother b hb
  · rw [hblk]
    show isPgcCall ((I.take (ii + 1) ++ S ++ I.drop (ii + 1)).getD ii default) = true
    rw [hgetD]
    exact hpgc
  · rw [hblk]
    show resOf ((I.take (ii + 1) ++ S ++ I.drop (ii + 1)).getD ii default) = pg
    rw [hgetD]
    exact hres

/-- Everything the claims need about the state after the entry
safepoint has been emitted, when no GC-state handle pre-exists: the
pass creates one at the entry block's first-non-phi position. -/
theorem entryStage_main_none (off sz : Nat) (F : Fn) (h0 : 0 < F.blocks.length)
    (hs : getPGCstack F = none)
    (hall : ∀ b, flushFree (blk F b).insts = true) :
    (entryStage off sz F).1.blocks.length = F.blocks.length ∧
    (∀ b, (blk (entryStage off sz F).1 b).term = (blk F b).term) ∧
    countSeqFn (nthfield off sz) (entryStage off sz F).1
      = countSeqFn (nthfield off sz) F + 1 ∧
    getPGCstack (entryStage off sz F).1
      = some (0, firstNonPHI (blk F 0), maxIdFn F + 1) ∧
    (0 : Nat) < F.blocks.length ∧
    flushFree ((blk (entryStage off sz F).1 0).insts.take (firstNonPHI (blk F 0) + 1)) = true ∧
    (∃ f rest, (blk (entryStage off sz F).1 0).insts.drop (firstNonPHI (blk F 0) + 1)
        = seqList f (maxIdFn F + 1) (nthfield off sz) ++ rest ∧
      ∃ k, SeqView (nthfield off sz) (maxIdFn F + 1) rest k) ∧
    (∀ b, b ≠ 0 →
      ∃ k, SeqView (nthfield off sz) (maxIdFn F + 1) (blk (entryStage off sz F).1 b).insts k) ∧
    isPgcCall ((blk (entryStage off sz F).1 0).insts.getD (firstNonPHI (blk F 0)) default)
      = true ∧
    resOf ((blk (entryStage off sz F).1 0).insts.getD (firstNonPHI (blk F 0)) default)
      = maxIdFn F + 1 := by
  have hE := @entryStage_none off sz _ hs
  rw [hE]
  set nth := nthfield off sz with hnth
  set m := maxIdFn F with hm
  set fnp := firstNonPHI (blk F 0) with hfnpdef
  set I : List Instr := (blk F 0).insts with hI
  set A : List Instr := I.take fnp with hA
  set B : List Instr := I.drop fnp with hB
  set c : Instr := Instr.call (m + 1) .getPGCStack [] with hc
  set S : List Instr := seqList (m + 2) (m + 1) nth with hS
  set F1 : Fn := insertInstsAt F 0 fnp [c] with hF1
  have hfnp : fnp ≤ I.length := List.findIdx_le_length _
  have hlenA : A.length = fnp := by
    rw [hA, List.length_take]
    omega
  have hlen1 : F1.blocks.length = F.blocks.length := length_insertInstsAt F 0 fnp [c]
  have h01 : 0 < F1.blocks.length := by rw [hlen1]; exact h0
  have hblk1 : blk F1 0 = { blk F 0 with insts := A ++ [c] ++ B } :=
    blk_insertInstsAt_self _ _ h0
  have hJ : (blk F1 0).insts = A ++ c :: B := by
    rw [hblk1]
    simp
  have hblk2 : blk (insertInstsAt F1 0 (fnp + 1) S) 0
      = { blk F1 0 with
          insts := (blk F1 0).insts.take (fnp + 1) ++ S ++ (blk F1 0).insts.drop (fnp + 1) } :=
    blk_insertInstsAt_self _ _ h01
  have hlenAc : (A ++ [c]).length = fnp + 1 := by simp [hlenA]
  have htake2 : (blk F1 0).insts.take (fnp + 1) = A ++ [c] := by
    rw [hJ, ← hlenA, take_append_cons]
  have hdrop2 : (blk F1 0).insts.drop (fnp + 1) = B := by
    rw [hJ, ← hlenA, drop_append_cons]
  have hins2 : (blk (insertInstsAt F1 0 (fnp + 1) S) 0).insts = (A ++ [c]) ++ S ++ B := by
    rw [hblk2]
    show (blk F1 0).insts.take (fnp + 1) ++ S ++ (blk F1 0).insts.drop (fnp + 1) = _
    rw [htake2, hdrop2]
  have hfl0 : flushFree I = true := hall 0
  have hflA : flushFree A = true := flushFree_take fnp hfl0
  have hflB : flushFree B = true := flushFree_drop fnp hfl0
  have hflc : isFlush c = false := rfl
  have hflAc : flushFree (A ++ [c]) = true := by
    rw [flushFree_append, hflA]
    simp [flushFree, hflc]
  have hcnt1 : countSeqFn nth F1 = countSeqFn nth F := by
    have := sum_map_set_add default (fun bb => countSeqL nth bb.insts) F.blocks 0
      { blk F 0 with insts := A ++ [c] ++ B } 0 h0 ?_
    · simpa [hF1, insertInstsAt, countSeqFn] using this
    · show countSeqL nth (A ++ [c] ++ B) = countSeqL nth (blk F 0).insts + 0
      rw [countSeqL_eq_zero_of_flushFree nth
          (by rw [flushFree_append, flushFree_append, hflA, hflB]; simp [flushFree, hflc]),
        countSeqL_eq_zero_of_flushFree nth hfl0]
  have hApgc : pgcFreeL A = true := by
    have hnone : findPgcIn I = none := by
      have := getPGCgo_none_iff.mp hs
      exact this _ (blk_mem h0)
    exact pgcFree_of_sublist (List.take_sublist _ _) (findPgcIn_none_iff.mp hnone)
  have hfind2 : findPgcIn (blk (insertInstsAt F1 0 (fnp + 1) S) 0).insts
      = some (fnp, m + 1) := by
    rw [hins2]
    rw [show (A ++ [c]) ++ S ++ B = A ++ c :: (S ++ B) by simp [List.append_assoc]]
    rw [findPgcIn_at_first_pgc hApgc (by rw [hc]; rfl), hlenA]
    rfl
  refine ⟨?_, ?_, ?_, ?_, h0, ?_, ?_, ?_, ?_, ?_⟩
  · rw [length_insertInstsAt, hlen1]
  · intro b
    rw [term_insertInstsAt, term_insertInstsAt]
  · -- the entry emission adds exactly one sequence
    have := sum_map_set_add default (fun bb => countSeqL nth bb.insts) F1.blocks 0
      { blk F1 0 with
        insts := (blk F1 0).insts.take (fnp + 1) ++ S ++ (blk F1 0).insts.drop (fnp + 1) }
      1 h01 ?_
    · rw [show countSeqFn nth (insertInstsAt F1 0 (fnp + 1) S)
          = ((F1.blocks.set 0 { blk F1 0 with
              insts := (blk F1 0).insts.take (fnp + 1) ++ S
                ++ (blk F1 0).insts.drop (fnp + 1) }).map
            (fun bb => countSeqL nth bb.insts)).sum from rfl]
      rw [this]
      rw [show ((F1.blocks.map (fun bb => countSeqL nth bb.insts)).sum) = countSeqFn nth F1
        from rfl]
      rw [hcnt1]
    · show countSeqL nth ((blk F1 0).insts.take (fnp + 1) ++ S ++ (blk F1 0).insts.drop (fnp + 1))
          = countSeqL nth (blk F1 0).insts + 1
      rw [htake2, hdrop2, List.append_assoc, countSeqL_prepend_flushFree nth hflAc, hS,
        countSeqL_seq_append, countSeqL_eq_zero_of_flushFree nth hflB, hJ]
      rw [show A ++ c :: B = (A ++ [c]) ++ B by simp]
      rw [countSeqL_prepend_flushFree nth hflAc, countSeqL_eq_zero_of_flushFree nth hflB]
  · exact getPGCstack_of_entry_found (by rw [length_insertInstsAt, hlen1]; exact h0) hfind2
  · rw [hins2]
    rw [show (A ++ [c]) ++ S ++ B = (A ++ [c]) ++ (S ++ B) from List.append_assoc _ _ _]
    rw [← hlenAc, List.take_left]
    exact hflAc
  · refine ⟨m + 2, B, ?_, ⟨0, SeqView.of_flushFree hflB⟩⟩
    rw [hins2]
    rw [show (A ++ [c]) ++ S ++ B = (A ++ [c]) ++ (S ++ B) from List.append_assoc _ _ _]
    rw [← hlenAc, List.drop_left]
  · intro b hb
    rw [blk_insertInstsAt_other _ _ hb, blk_insertInstsAt_other _ _ hb]
    exact ⟨0, SeqView.of_flushFree (hall b)⟩
  · rw [hins2]
    rw [show (A ++ [c]) ++ S ++ B = A ++ c :: (S ++ B) by simp [List.append_assoc]]
    have h2 := getD_append_cons A c (S ++ B) default
    rw [hlenA] at h2
    rw [h2, hc]
    rfl
  · rw [hins2]
    rw [show (A ++ [c]) ++ S ++ B = A ++ c :: (S ++ B) by simp [List.append_assoc]]
    have h2 := getD_append_cons A c (S ++ B) default
    rw [hlenA] at h2
    rw [h2, hc]
    rfl

/-! ## The full pass -/

theorem seqList_ne_nil (f pg nth : Nat) : seqList f pg nth ≠ [] := by
  simp [seqList]

theorem runOnFunction_eq (off sz : Nat) (LI : List Loop) (F : Fn) :
    (runOnFunction off sz LI F).1
      = (emitLoops off sz (entryStage off sz F).2.1
          (backedges (entryStage off sz F).1 LI)
          ((entryStage off sz F).1, (entryStage off sz F).2.2.1)).1 := by
  rw [runOnFunction]

/-- Main characterization of one pass run, given the entry-stage facts
for handle position `(hb, hi)` and handle id `pg`. -/
theorem run_from_entry (off sz : Nat) (LI : List Loop) (F : Fn) (hb hi : Nat) (pg : Nat)
    (hpg : (entryStage off sz F).2.1 = pg)
    (hlenE : (entryStage off sz F).1.blocks.length = F.blocks.length)
    (htermE : ∀ b, (blk (entryStage off sz F).1 b).term = (blk F b).term)
    (hcntE : countSeqFn (nthfield off sz) (entryStage off sz F).1
      = countSeqFn (nthfield off sz) F + 1)
    (hpgcE : getPGCstack (entryStage off sz F).1 = some (hb, hi, pg))
    (hbE : hb < F.blocks.length)
    (hfreeE : flushFree ((blk (entryStage off sz F).1 hb).insts.take (hi + 1)) = true)
    (hdropE : ∃ f rest, (blk (entryStage off sz F).1 hb).insts.drop (hi + 1)
        = seqList f pg (nthfield off sz) ++ rest ∧
      ∃ k, SeqView (nthfield off sz) pg rest k)
    (hotherE : ∀ b, b ≠ hb →
      ∃ k, SeqView (nthfield off sz) pg (blk (entryStage off sz F).1 b).insts k)
    (hcallE : isPgcCall ((blk (entryStage off sz F).1 hb).insts.getD hi default) = true)
    (hresE : resOf ((blk (entryStage off sz F).1 hb).insts.getD hi default) = pg) :
    (runOnFunction off sz LI F).1.blocks.length = F.blocks.length ∧
    (∀ b, (blk (runOnFunction off sz LI F).1 b).term = (blk F b).term) ∧
    countSeqFn (nthfield off sz) (runOnFunction off sz LI F).1
      = countSeqFn (nthfield off sz) F + 1 + (backedges F LI).length ∧
    getPGCstack (runOnFunction off sz LI F).1 = some (hb, hi, pg) ∧
    HypGood (nthfield off sz) (runOnFunction off sz LI F).1 ∧
    (∀ b i, isSeqAt (nthfield off sz) ((blk (runOnFunction off sz LI F).1 b).insts.drop i) = true →
      gepBaseAt ((blk (runOnFunction off sz LI F).1 b).insts.drop i) = some pg ∧
      gepIdxAt ((blk (runOnFunction off sz LI F).1 b).insts.drop i) = some (nthfield off sz)) ∧
    isPgcCall ((blk (runOnFunction off sz LI F).1 hb).insts.getD hi default) = true ∧
    resOf ((blk (runOnFunction off sz LI F).1 hb).insts.getD hi default) = pg ∧
    isSeqAt (nthfield off sz) ((blk (runOnFunction off sz LI F).1 hb).insts.drop (hi + 1))
      = true := by
  set nth := nthfield off sz with hnth
  set F2 : Fn := (entryStage off sz F).1 with hF2
  obtain ⟨fE, rest, hdec, kE, hviewrest⟩ := hdropE
  -- the cursor position is inside the block: the entry sequence follows it
  have hlt : hi + 1 < (blk F2 hb).insts.length := by
    by_contra hc
    have : (blk F2 hb).insts.drop (hi + 1) = [] :=
      List.drop_eq_nil_of_le (Nat.le_of_not_lt hc)
    rw [hdec] at this
    exact seqList_ne_nil fE pg nth (List.append_eq_nil.mp this).1
  have hle : hi + 1 ≤ (blk F2 hb).insts.length := Nat.le_of_lt hlt
  -- SeqView of the handle block and of every block of F2
  have hviewdrop : SeqView nth pg ((blk F2 hb).insts.drop (hi + 1)) (kE + 1) := by
    rw [hdec]
    exact SeqView.seq fE hviewrest
  have hviewhb : ∃ k, SeqView nth pg (blk F2 hb).insts k := by
    refine ⟨kE + 1, ?_⟩
    conv_lhs => skip
    rw [← List.take_append_drop (hi + 1) (blk F2 hb).insts]
    exact SeqView.prepend_flushFree hfreeE hviewdrop
  have hviewall : ∀ b, ∃ k, SeqView nth pg (blk F2 b).insts k := by
    intro b
    by_cases hbb : b = hb
    · subst hbb; exact hviewhb
    · exact hotherE b hbb
  -- backedge lists agree between F and F2
  have hbe : backedges F2 LI = backedges F LI := backedges_congr LI hlenE htermE
  set bs : List Nat := backedges F LI with hbs
  have hbslt : ∀ b ∈ bs, b < F2.blocks.length := by
    intro b hbmem
    rw [hlenE]
    exact backedges_lt b hbmem
  have hrun : (runOnFunction off sz LI F).1
      = (emitLoops off sz pg bs (F2, (entryStage off sz F).2.2.1)).1 := by
    rw [runOnFunction_eq, hpg, ← hF2, hbe]
  obtain ⟨hlenL, htermL, hdecL⟩ :=
    emitLoops_spec off sz pg bs F2 (entryStage off sz F).2.2.1 hbslt
  have hcntL := emitLoops_total off sz pg bs F2 (entryStage off sz F).2.2.1 hbslt hviewall
  refine ⟨?_, ?_, ?_, ?_, ?_, ?_, ?_, ?_, ?_⟩
  · rw [hrun, hlenL, hlenE]
  · intro b
    rw [hrun, htermL b, htermE b]
  · rw [hrun, hcntL, hcntE]
  · -- the locator still finds the handle at the same place
    rw [hrun]
    refine Eq.trans (getPGCstack_congr hlenL ?_) hpgcE
    intro j
    obtain ⟨t, hst, hins⟩ := hdecL j
    rw [hins]
    exact findPgcIn_append_pgcFree hst.pgcFree
  · -- the output again has the good shape around the same handle
    have hpgcO : getPGCstack (runOnFunction off sz LI F).1 = some (hb, hi, pg) := by
      rw [hrun]
      refine Eq.trans (getPGCstack_congr hlenL ?_) hpgcE
      intro j
      obtain ⟨t, hst, hins⟩ := hdecL j
      rw [hins]
      exact findPgcIn_append_pgcFree hst.pgcFree
    unfold HypGood
    rw [hpgcO]
    obtain ⟨t, hst, hins⟩ := hdecL hb
    refine ⟨?_, ?_, ?_⟩
    · rw [hrun, hins, List.take_append_of_le_length hle]
      exact hfreeE
    · rw [hrun, hins, drop_append_of_le _ hle]
      exact ⟨kE + 1 + bs.count hb, hviewdrop.append_tail hst⟩
    · intro b hbb
      obtain ⟨t', hst', hins'⟩ := hdecL b
      obtain ⟨k, hk⟩ := hviewall b
      rw [hrun, hins']
      exact ⟨k + bs.count b, hk.append_tail hst'⟩
  · -- every safepoint occurrence reads the same handle and field index
    intro b i hocc
    obtain ⟨t', hst', hins'⟩ := hdecL b
    obtain ⟨k, hk⟩ := hviewall b
    have hview' : SeqView nth pg (blk (runOnFunction off sz LI F).1 b).insts (k + bs.count b) := by
      rw [hrun, hins']
      exact hk.append_tail hst'
    exact hview'.occ i hocc
  · obtain ⟨t, hst, hins⟩ := hdecL hb
    rw [hrun, hins, getD_append_of_lt _ default (Nat.lt_of_succ_le hle)]
    exact hcallE
  · obtain ⟨t, hst, hins⟩ := hdecL hb
    rw [hrun, hins, getD_append_of_lt _ default (Nat.lt_of_succ_le hle)]
    exact hresE
  · obtain ⟨t, hst, hins⟩ := hdecL hb
    rw [hrun, hins, drop_append_of_le _ hle, hdec, List.append_assoc]
    exact isSeqAt_seq_append nth fE pg _

theorem emitLoops_empty (off sz pg : Nat) : ∀ (bs : List Nat) (fr : Nat),
    (emitLoops off sz pg bs (⟨[]⟩, fr)).1 = (⟨[]⟩ : Fn) := by
  intro bs
  induction bs with
  | nil => intro fr; rfl
  | cons b bs ih =>
    intro fr
    show (emitLoops off sz pg bs
      (appendToBlock ⟨[]⟩ b (emitGCSafepoint fr pg off sz), fr + 5)).1 = _
    have : appendToBlock (⟨[]⟩ : Fn) b (emitGCSafepoint fr pg off sz) = (⟨[]⟩ : Fn) := by
      simp [appendToBlock]
    rw [this]
    exact ih (fr + 5)

/-- A function with no blocks is returned unchanged (degenerate case;
the source assumes a non-empty function). -/
theorem run_empty (off sz : Nat) (LI : List Loop) (F : Fn)
    (h : F.blocks.length = 0) : (runOnFunction off sz LI F).1 = F := by
  obtain ⟨bs⟩ := F
  have hbs : bs = [] := List.length_eq_zero.mp h
  subst hbs
  rw [runOnFunction_eq]
  have h2 : (entryStage off sz ⟨[]⟩).1 = (⟨[]⟩ : Fn) := rfl
  rw [h2]
  exact emitLoops_empty off sz _ _ _

theorem sublist_insertInstsAt (F : Fn) (b' i : Nat) (new : List Instr) (b : Nat) :
    (blk F b).insts.Sublist (blk (insertInstsAt F b' i new) b).insts := by
  by_cases hlt : b' < F.blocks.length
  · by_cases hbb : b = b'
    · subst hbb
      rw [blk_insertInstsAt_self _ _ hlt]
      show (blk F b).insts.Sublist ((blk F b).insts.take i ++ new ++ (blk F b).insts.drop i)
      conv_lhs => rw [← List.take_append_drop i (blk F b).insts]
      rw [List.append_assoc]
      exact List.Sublist.append_left (List.sublist_append_right _ _) _
    · rw [blk_insertInstsAt_other _ _ hbb]
  · have : (insertInstsAt F b' i new).blocks = F.blocks :=
      List.set_eq_of_length_le (Nat.le_of_not_lt hlt)
    rw [show blk (insertInstsAt F b' i new) b = blk F b by rw [blk, this]; rfl]

/-- Frame property of the whole pass: same block count, identical
terminators (hence an identical CFG), and every original instruction
list survives as a sublist (same instructions, same relative order). -/
theorem run_frame (off sz : Nat) (LI : List Loop) (F : Fn) :
    (runOnFunction off sz LI F).1.blocks.length = F.blocks.length ∧
    (∀ b, (blk (runOnFunction off sz LI F).1 b).term = (blk F b).term) ∧
    (∀ b, (blk F b).insts.Sublist (blk (runOnFunction off sz LI F).1 b).insts) := by
  by_cases h0 : 0 < F.blocks.length
  · obtain ⟨hlen2, hterm2, hsub2⟩ :
        (entryStage off sz F).1.blocks.length = F.blocks.length ∧
        (∀ b, (blk (entryStage off sz F).1 b).term = (blk F b).term) ∧
        (∀ b, (blk F b).insts.Sublist (blk (entryStage off sz F).1 b).insts) := by
      cases hgp : getPGCstack F with
      | some s =>
        obtain ⟨bi, ii, pg⟩ := s
        have h1 : (entryStage off sz F).1
            = insertInstsAt F bi (ii + 1) (seqList (maxIdFn F + 1) pg (nthfield off sz)) := by
          rw [entryStage_some hgp]
        rw [h1]
        exact ⟨length_insertInstsAt _ _ _ _, fun b => term_insertInstsAt _ _ _ _ b,
          fun b => sublist_insertInstsAt _ _ _ _ b⟩
      | none =>
        have h1 : (entryStage off sz F).1
            = insertInstsAt
                (insertInstsAt F 0 (firstNonPHI (blk F 0))
                  [Instr.call (maxIdFn F + 1) .getPGCStack []])
                0 (firstNonPHI (blk F 0) + 1)
                (seqList (maxIdFn F + 2) (maxIdFn F + 1) (nthfield off sz)) := by
          rw [entryStage_none hgp]
        rw [h1]
        refine ⟨by rw [length_insertInstsAt, length_insertInstsAt],
          fun b => by rw [term_insertInstsAt, term_insertInstsAt], fun b => ?_⟩
        exact (sublist_insertInstsAt _ _ _ _ b).trans (sublist_insertInstsAt _ _ _ _ b)
    have hbslt : ∀ b ∈ backedges (entryStage off sz F).1 LI,
        b < (entryStage off sz F).1.blocks.length := backedges_lt
    obtain ⟨hlenL, htermL, hdecL⟩ := emitLoops_spec off sz (entryStage off sz F).2.1
      (backedges (entryStage off sz F).1 LI) (entryStage off sz F).1
      (entryStage off sz F).2.2.1 hbslt
    rw [runOnFunction_eq]
    refine ⟨by rw [hlenL, hlen2], fun b => by rw [htermL b, hterm2 b], fun b => ?_⟩
    obtain ⟨t, _, hins⟩ := hdecL b
    rw [hins]
    exact (hsub2 b).trans (List.sublist_append_left _ _)
  · rw [run_empty off sz LI F (Nat.eq_zero_of_not_pos h0)]
    exact ⟨rfl, fun _ => rfl, fun _ => List.Sublist.refl _⟩

/-- Main characterization of one pass run on a well-shaped input. -/
theorem run_master (off sz : Nat) (LI : List Loop) (F : Fn) (h0 : 0 < F.blocks.length)
    (hg : HypGood (nthfield off sz) F) :
    (runOnFunction off sz LI F).1.blocks.length = F.blocks.length ∧
    (∀ b, (blk (runOnFunction off sz LI F).1 b).term = (blk F b).term) ∧
    countSeqFn (nthfield off sz) (runOnFunction off sz LI F).1
      = countSeqFn (nthfield off sz) F + 1 + (backedges F LI).length ∧
    getPGCstack (runOnFunction off sz LI F).1
      = some ((handleSite off sz F).1, (handleSite off sz F).2, handleId off sz F) ∧
    HypGood (nthfield off sz) (runOnFunction off sz LI F).1 ∧
    (∀ b i, isSeqAt (nthfield off sz)
        ((blk (runOnFunction off sz LI F).1 b).insts.drop i) = true →
      gepBaseAt ((blk (runOnFunction off sz LI F).1 b).insts.drop i) = some (handleId off sz F) ∧
      gepIdxAt ((blk (runOnFunction off sz LI F).1 b).insts.drop i)
        = some (nthfield off sz)) ∧
    isPgcCall ((blk (runOnFunction off sz LI F).1 (handleSite off sz F).1).insts.getD
      (handleSite off sz F).2 default) = true ∧
    resOf ((blk (runOnFunction off sz LI F).1 (handleSite off sz F).1).insts.getD
      (handleSite off sz F).2 default) = handleId off sz F ∧
    isSeqAt (nthfield off sz) ((blk (runOnFunction off sz LI F).1 (handleSite off sz F).1).insts.drop
      ((handleSite off sz F).2 + 1)) = true := by
  cases hgp : getPGCstack F with
  | some s =>
    obtain ⟨bi, ii, pg⟩ := s
    have hH : HypSome (nthfield off sz) pg F bi ii := by
      unfold HypGood at hg
      rw [hgp] at hg
      exact hg
    obtain ⟨e1, e2, e3, e4, e5, e6, e7, e8, e9, e10⟩ :=
      entryStage_main_some off sz F bi ii pg hgp hH
    have hpg : (entryStage off sz F).2.1 = pg := by rw [entryStage_some hgp]
    rw [handleSite_some hgp, handleId_some hgp]
    exact run_from_entry off sz LI F bi ii pg hpg e1 e2 e3 e4 e5 e6 e7 e8 e9 e10
  | none =>
    have hall : ∀ b, flushFree (blk F b).insts = true := by
      unfold HypGood at hg
      rw [hgp] at hg
      exact hg
    obtain ⟨e1, e2, e3, e4, e5, e6, e7, e8, e9, e10⟩ :=
      entryStage_main_none off sz F h0 hgp hall
    have hpg : (entryStage off sz F).2.1 = maxIdFn F + 1 := by rw [entryStage_none hgp]
    rw [handleSite_none hgp, handleId_none hgp]
    exact run_from_entry off sz LI F 0 (firstNonPHI (blk F 0)) (maxIdFn F + 1)
      hpg e1 e2 e3 e4 e5 e6 e7 e8 e9 e10

/-! ## Clean inputs -/

theorem clean_all {F : Fn} (hc : cleanFn F) : ∀ b, flushFree (blk F b).insts = true := by
  intro b
  by_cases hb : b < F.blocks.length
  · exact hc _ (blk_mem hb)
  · rw [blk_default_of_le (Nat.le_of_not_lt hb)]; rfl

theorem countSeqFn_zero_of_clean {nth : Nat} {F : Fn} (hc : cleanFn F) :
    countSeqFn nth F = 0 := by
  unfold countSeqFn
  rw [List.sum_eq_zero]
  intro x hx
  obtain ⟨bb, hbb, hxx⟩ := List.mem_map.mp hx
  rw [← hxx, countSeqL_eq_zero_of_flushFree nth (hc bb hbb)]

/-! ## Explicit block contents after the entry stage -/

theorem entryStage_some_insts {off sz : Nat} {F : Fn} {bi ii : Nat} {pg : Nat}
    (hs : getPGCstack F = some (bi, ii, pg)) (hbi : bi < F.blocks.length) :
    (blk (entryStage off sz F).1 bi).insts
      = (blk F bi).insts.take (ii + 1)
        ++ seqList (maxIdFn F + 1) pg (nthfield off sz)
        ++ (blk F bi).insts.drop (ii + 1) := by
  have h1 : (entryStage off sz F).1
      = insertInstsAt F bi (ii + 1) (seqList (maxIdFn F + 1) pg (nthfield off sz)) := by
    rw [entryStage_some hs]
  rw [h1, blk_insertInstsAt_self _ _ hbi]

theorem entryStage_none_insts {off sz : Nat} {F : Fn} (h0 : 0 < F.blocks.length)
    (hs : getPGCstack F = none) :
    (blk (entryStage off sz F).1 0).insts
      = ((blk F 0).insts.take (firstNonPHI (blk F 0))
          ++ [Instr.call (maxIdFn F + 1) .getPGCStack []])
        ++ seqList (maxIdFn F + 2) (maxIdFn F + 1) (nthfield off sz)
        ++ (blk F 0).insts.drop (firstNonPHI (blk F 0)) := by
  have h1 : (entryStage off sz F).1
      = insertInstsAt
          (insertInstsAt F 0 (firstNonPHI (blk F 0))
            [Instr.call (maxIdFn F + 1) .getPGCStack []])
          0 (firstNonPHI (blk F 0) + 1)
          (seqList (maxIdFn F + 2) (maxIdFn F + 1) (nthfield off sz)) := by
    rw [entryStage_none hs]
  set fnp := firstNonPHI (blk F 0) with hfnp
  set I : List Instr := (blk F 0).insts with hI
  set c : Instr := Instr.call (maxIdFn F + 1) .getPGCStack [] with hc
  have hfnple : fnp ≤ I.length := List.findIdx_le_length _
  have hlenA : (I.take fnp).length = fnp := by rw [List.length_take]; omega
  have h01 : 0 < (insertInstsAt F 0 fnp [c]).blocks.length := by
    rw [length_insertInstsAt]; exact h0
  have hblk1 : blk (insertInstsAt F 0 fnp [c]) 0
      = { blk F 0 with insts := I.take fnp ++ [c] ++ I.drop fnp } :=
    blk_insertInstsAt_self _ _ h0
  rw [h1, blk_insertInstsAt_self _ _ h01, hblk1]
  show (I.take fnp ++ [c] ++ I.drop fnp).take (fnp + 1)
      ++ seqList (maxIdFn F + 2) (maxIdFn F + 1) (nthfield off sz)
      ++ (I.take fnp ++ [c] ++ I.drop fnp).drop (fnp + 1) = _
  have hJ : I.take fnp ++ [c] ++ I.drop fnp = I.take fnp ++ c :: I.drop fnp := by simp
  rw [hJ]
  have ht := take_append_cons (I.take fnp) c (I.drop fnp)
  have hd := drop_append_cons (I.take fnp) c (I.drop fnp)
  rw [hlenA] at ht hd
  rw [ht, hd]

/-- Per-block sequence counts of the pass output on a clean input: one
at the handle block plus one per occurrence of the block in the
backedge list. -/
theorem run_perblock (off sz : Nat) (LI : List Loop) (F : Fn) (h0 : 0 < F.blocks.length)
    (hc : cleanFn F) (b : Nat) :
    countSeqL (nthfield off sz) (blk (runOnFunction off sz LI F).1 b).insts
      = (if b = (handleSite off sz F).1 then 1 else 0) + (backedges F LI).count b := by
  set nth := nthfield off sz with hnth
  have hall := clean_all hc
  -- SeqView of every entry-stage block, with count 1 at the handle block
  have hview2 : ∀ b', SeqView nth (handleId off sz F) (blk (entryStage off sz F).1 b').insts
      (if b' = (handleSite off sz F).1 then 1 else 0) := by
    intro b'
    cases hgp : getPGCstack F with
    | some s =>
      obtain ⟨bi, ii, pg⟩ := s
      obtain ⟨hbi, _, _⟩ := getPGCstack_spec hgp
      rw [handleSite_some hgp, handleId_some hgp]
      by_cases hbb : b' = bi
      · subst hbb
        rw [if_pos rfl, entryStage_some_insts hgp hbi]
        have hf : SeqView nth pg (seqList (maxIdFn F + 1) pg nth
            ++ (blk F b').insts.drop (ii + 1)) (0 + 1) :=
          SeqView.seq _ (SeqView.of_flushFree (flushFree_drop _ (hall b')))
        rw [List.append_assoc]
        exact SeqView.prepend_flushFree (flushFree_take _ (hall b')) hf
      · rw [if_neg hbb]
        have h1 : (entryStage off sz F).1
            = insertInstsAt F bi (ii + 1) (seqList (maxIdFn F + 1) pg nth) := by
          rw [entryStage_some hgp]
        rw [h1, blk_insertInstsAt_other _ _ hbb]
        exact SeqView.of_flushFree (hall b')
    | none =>
      rw [handleSite_none hgp, handleId_none hgp]
      by_cases hbb : b' = 0
      · subst hbb
        rw [if_pos rfl, entryStage_none_insts h0 hgp]
        have hAc : flushFree ((blk F 0).insts.take (firstNonPHI (blk F 0))
            ++ [Instr.call (maxIdFn F + 1) .getPGCStack []]) = true := by
          rw [flushFree_append, flushFree_take _ (hall 0)]
          rfl
        have hf : SeqView nth (maxIdFn F + 1) (seqList (maxIdFn F + 2) (maxIdFn F + 1) nth
            ++ (blk F 0).insts.drop (firstNonPHI (blk F 0))) (0 + 1) :=
          SeqView.seq _ (SeqView.of_flushFree (flushFree_drop _ (hall 0)))
        rw [List.append_assoc]
        exact SeqView.prepend_flushFree hAc hf
      · rw [if_neg hbb]
        have h1 : (entryStage off sz F).1
            = insertInstsAt
                (insertInstsAt F 0 (firstNonPHI (blk F 0))
                  [Instr.call (maxIdFn F + 1) .getPGCStack []])
                0 (firstNonPHI (blk F 0) + 1)
                (seqList (maxIdFn F + 2) (maxIdFn F + 1) nth) := by
          rw [entryStage_none hgp]
        rw [h1, blk_insertInstsAt_other _ _ hbb, blk_insertInstsAt_other _ _ hbb]
        exact SeqView.of_flushFree (hall b')
  -- frame facts of the entry stage, to relate backedge lists
  obtain ⟨hlen2, hterm2, _⟩ :
      (entryStage off sz F).1.blocks.length = F.blocks.length ∧
      (∀ b', (blk (entryStage off sz F).1 b').term = (blk F b').term) ∧
      (∀ b', (blk F b').insts.Sublist (blk (entryStage off sz F).1 b').insts) := by
    cases hgp : getPGCstack F with
    | some s =>
      obtain ⟨bi, ii, pg⟩ := s
      have h1 : (entryStage off sz F).1
          = insertInstsAt F bi (ii + 1) (seqList (maxIdFn F + 1) pg nth) := by
        rw [entryStage_some hgp]
      rw [h1]
      exact ⟨length_insertInstsAt _ _ _ _, fun b' => term_insertInstsAt _ _ _ _ b',
        fun b' => sublist_insertInstsAt _ _ _ _ b'⟩
    | none =>
      have h1 : (entryStage off sz F).1
          = insertInstsAt
              (insertInstsAt F 0 (firstNonPHI (blk F 0))
                [Instr.call (maxIdFn F + 1) .getPGCStack []])
              0 (firstNonPHI (blk F 0) + 1)
              (seqList (maxIdFn F + 2) (maxIdFn F + 1) nth) := by
        rw [entryStage_none hgp]
      rw [h1]
      refine ⟨by rw [length_insertInstsAt, length_insertInstsAt],
        fun b' => by rw [term_insertInstsAt, term_insertInstsAt], fun b' => ?_⟩
      exact (sublist_insertInstsAt _ _ _ _ b').trans (sublist_insertInstsAt _ _ _ _ b')
  have hbe : backedges (entryStage off sz F).1 LI = backedges F LI :=
    backedges_congr LI hlen2 hterm2
  have hbslt : ∀ x ∈ backedges (entryStage off sz F).1 LI,
      x < (entryStage off sz F).1.blocks.length := backedges_lt
  obtain ⟨_, _, hdecL⟩ := emitLoops_spec off sz (entryStage off sz F).2.1
    (backedges (entryStage off sz F).1 LI) (entryStage off sz F).1
    (entryStage off sz F).2.2.1 hbslt
  obtain ⟨t, hst, hins⟩ := hdecL b
  have hpg : (entryStage off sz F).2.1 = handleId off sz F := rfl
  rw [hbe] at hst
  rw [runOnFunction_eq, hins]
  exact ((hview2 b).append_tail (hpg ▸ hst)).count

/-! ## Position facts, independent of input cleanliness -/

theorem take_insert_block {α : Type} {I : List α} {ii : Nat} (S : List α)
    (hii : ii < I.length) :
    (I.take (ii + 1) ++ S ++ I.drop (ii + 1)).take (ii + 1) = I.take (ii + 1) := by
  have hlen_take : (I.take (ii + 1)).length = ii + 1 := by rw [List.length_take]; omega
  rw [List.append_assoc, List.take_append_of_le_length (Nat.le_of_eq hlen_take.symm),
    List.take_take]
  simp

theorem drop_insert_block {α : Type} {I : List α} {ii : Nat} (S : List α)
    (hii : ii < I.length) :
    (I.take (ii + 1) ++ S ++ I.drop (ii + 1)).drop (ii + 1) = S ++ I.drop (ii + 1) := by
  have hlen_take : (I.take (ii + 1)).length = ii + 1 := by rw [List.length_take]; omega
  rw [List.append_assoc, drop_append_of_le _ (Nat.le_of_eq hlen_take.symm),
    List.drop_eq_nil_of_le (Nat.le_of_eq hlen_take)]
  rfl

theorem getD_insert_block {I : List Instr} {ii : Nat} (S : List Instr)
    (hii : ii < I.length) :
    (I.take (ii + 1) ++ S ++ I.drop (ii + 1)).getD ii default = I.getD ii default := by
  rw [take_succ_getD hii]
  rw [show (I.take ii ++ [I.getD ii default]) ++ S ++ I.drop (ii + 1)
      = I.take ii ++ (I.getD ii default) :: (S ++ I.drop (ii + 1)) by
    simp [List.append_assoc]]
  have hlii : (I.take ii).length = ii := by rw [List.length_take]; omega
  have h2 := getD_append_cons (I.take ii) (I.getD ii default) (S ++ I.drop (ii + 1)) default
  rwa [hlii] at h2

/-- Where the pass leaves the handle and the entry sequence, for any
input: at `handleSite` the handle-establishing call sits, and the entry
safepoint sequence starts immediately after it. -/
theorem entry_position (off sz : Nat) (F : Fn) (h0 : 0 < F.blocks.length) :
    (handleSite off sz F).1 < F.blocks.length ∧
    isPgcCall ((blk (entryStage off sz F).1 (handleSite off sz F).1).insts.getD
      (handleSite off sz F).2 default) = true ∧
    resOf ((blk (entryStage off sz F).1 (handleSite off sz F).1).insts.getD
      (handleSite off sz F).2 default) = handleId off sz F ∧
    ∃ f rest, (blk (entryStage off sz F).1 (handleSite off sz F).1).insts.drop
        ((handleSite off sz F).2 + 1)
      = seqList f (handleId off sz F) (nthfield off sz) ++ rest := by
  cases hgp : getPGCstack F with
  | some s =>
    obtain ⟨bi, ii, pg⟩ := s
    obtain ⟨hbi, hfind, _⟩ := getPGCstack_spec hgp
    obtain ⟨hii, _, hpgc, hres⟩ := findPgcIn_spec hfind
    rw [handleSite_some hgp, handleId_some hgp]
    rw [entryStage_some_insts hgp hbi]
    refine ⟨hbi, ?_, ?_, ?_⟩
    · rw [getD_insert_block _ hii]; exact hpgc
    · rw [getD_insert_block _ hii]; exact hres
    · exact ⟨maxIdFn F + 1, (blk F bi).insts.drop (ii + 1), drop_insert_block _ hii⟩
  | none =>
    rw [handleSite_none hgp, handleId_none hgp]
    rw [entryStage_none_insts h0 hgp]
    set fnp := firstNonPHI (blk F 0) with hfnp
    set I : List Instr := (blk F 0).insts with hI
    set c : Instr := Instr.call (maxIdFn F + 1) .getPGCStack [] with hc
    have hfnple : fnp ≤ I.length := List.findIdx_le_length _
    have hlenA : (I.take fnp).length = fnp := by rw [List.length_take]; omega
    have hform : (I.take fnp ++ [c])
        ++ seqList (maxIdFn F + 2) (maxIdFn F + 1) (nthfield off sz) ++ I.drop fnp
      = I.take fnp
        ++ c :: (seqList (maxIdFn F + 2) (maxIdFn F + 1) (nthfield off sz) ++ I.drop fnp) := by
      simp [List.append_assoc]
    have hgetD := getD_append_cons (I.take fnp) c
      (seqList (maxIdFn F + 2) (maxIdFn F + 1) (nthfield off sz) ++ I.drop fnp) default
    rw [hlenA] at hgetD
    have hdropc := drop_append_cons (I.take fnp) c
      (seqList (maxIdFn F + 2) (maxIdFn F + 1) (nthfield off sz) ++ I.drop fnp)
    rw [hlenA] at hdropc
    refine ⟨h0, ?_, ?_, ?_⟩
    · rw [hform, hgetD, hc]; rfl
    · rw [hform, hgetD, hc]; rfl
    · exact ⟨maxIdFn F + 2, I.drop fnp, by rw [hform, hdropc]⟩

/-- Same position facts about the final pass output: the handle call is
untouched and still immediately followed by the entry safepoint
sequence. -/
theorem run_position (off sz : Nat) (LI : List Loop) (F : Fn) (h0 : 0 < F.blocks.length) :
    (handleSite off sz F).1 < F.blocks.length ∧
    isPgcCall ((blk (runOnFunction off sz LI F).1 (handleSite off sz F).1).insts.getD
      (handleSite off sz F).2 default) = true ∧
    resOf ((blk (runOnFunction off sz LI F).1 (handleSite off sz F).1).insts.getD
      (handleSite off sz F).2 default) = handleId off sz F ∧
    isSeqAt (nthfield off sz)
      ((blk (runOnFunction off sz LI F).1 (handleSite off sz F).1).insts.drop
        ((handleSite off sz F).2 + 1)) = true ∧
    (blk (runOnFunction off sz LI F).1 (handleSite off sz F).1).insts.getD
        (handleSite off sz F).2 default
      = (blk (entryStage off sz F).1 (handleSite off sz F).1).insts.getD
        (handleSite off sz F).2 default := by
  obtain ⟨hbE, hcallE, hresE, fE, rest, hdec⟩ := entry_position off sz F h0
  set nth := nthfield off sz with hnth
  set F2 : Fn := (entryStage off sz F).1 with hF2
  set hb : Nat := (handleSite off sz F).1 with hhb
  set hi : Nat := (handleSite off sz F).2 with hhi
  have hlt : hi + 1 < (blk F2 hb).insts.length := by
    by_contra hcon
    have : (blk F2 hb).insts.drop (hi + 1) = [] :=
      List.drop_eq_nil_of_le (Nat.le_of_not_lt hcon)
    rw [hdec] at this
    exact seqList_ne_nil fE _ nth (List.append_eq_nil.mp this).1
  have hle : hi + 1 ≤ (blk F2 hb).insts.length := Nat.le_of_lt hlt
  have hbslt : ∀ x ∈ backedges F2 LI, x < F2.blocks.length := backedges_lt
  obtain ⟨_, _, hdecL⟩ := emitLoops_spec off sz (entryStage off sz F).2.1
    (backedges F2 LI) F2 (entryStage off sz F).2.2.1 hbslt
  obtain ⟨t, hst, hins⟩ := hdecL hb
  refine ⟨hbE, ?_, ?_, ?_, ?_⟩
  · rw [runOnFunction_eq, hins, getD_append_of_lt _ default (Nat.lt_of_succ_le hle)]
    exact hcallE
  · rw [runOnFunction_eq, hins, getD_append_of_lt _ default (Nat.lt_of_succ_le hle)]
    exact hresE
  · rw [runOnFunction_eq, hins, drop_append_of_le _ hle, hdec, List.append_assoc]
    exact isSeqAt_seq_append nth fE _ _
  · rw [runOnFunction_eq, hins, getD_append_of_lt _ default (Nat.lt_of_succ_le hle)]

/-! ## The pass never duplicates the handle-establishing call -/

theorem countP_pgc_seqList (f pg nth : Nat) :
    (seqList f pg nth).countP (fun i => isPgcCall i) = 0 := by
  simp [seqList, isPgcCall]

theorem countP_pgc_of_pgcFree {t : List Instr} (ht : pgcFreeL t = true) :
    t.countP (fun i => isPgcCall i) = 0 := by
  rw [List.countP_eq_zero]
  intro a ha
  simp only [pgcFreeL, List.all_eq_true, Bool.not_eq_true'] at ht
  simp [ht a ha]

theorem sum_map_blk_congr (g : BB → Nat) : ∀ (l l' : List BB), l.length = l'.length →
    (∀ b, g (l.getD b default) = g (l'.getD b default)) →
    (l.map g).sum = (l'.map g).sum := by
  intro l
  induction l with
  | nil =>
    intro l' hlen _
    cases l' with
    | nil => rfl
    | cons _ _ => cases hlen
  | cons x l ih =>
    intro l' hlen hpt
    cases l' with
    | nil => cases hlen
    | cons y l'' =>
      have h0 : g x = g y := by simpa [List.getD_cons_zero] using hpt 0
      have htail := ih l'' (by simpa using hlen) (fun b => by simpa [List.getD_cons_succ] using hpt (b + 1))
      simp [h0, htail]

/-- When the handle pre-exists, the pass creates no additional
handle-establishing call: the count of such calls is unchanged. -/
theorem run_pgcCount_found (off sz : Nat) (LI : List Loop) (F : Fn) (bi ii : Nat) (pg : Nat)
    (hs : getPGCstack F = some (bi, ii, pg)) :
    countPgcFn (runOnFunction off sz LI F).1 = countPgcFn F := by
  obtain ⟨hbi, _, _⟩ := getPGCstack_spec hs
  set nth := nthfield off sz with hnth
  have h1 : (entryStage off sz F).1
      = insertInstsAt F bi (ii + 1) (seqList (maxIdFn F + 1) pg nth) := by
    rw [entryStage_some hs]
  have hlen2 : (entryStage off sz F).1.blocks.length = F.blocks.length := by
    rw [h1]; exact length_insertInstsAt _ _ _ _
  have hcnt2 : ∀ b, ((blk (entryStage off sz F).1 b).insts).countP (fun i => isPgcCall i)
      = ((blk F b).insts).countP (fun i => isPgcCall i) := by
    intro b
    by_cases hbb : b = bi
    · subst hbb
      rw [entryStage_some_insts hs hbi]
      rw [List.countP_append, List.countP_append, countP_pgc_seqList]
      conv_rhs => rw [← List.take_append_drop (ii + 1) (blk F b).insts, List.countP_append]
      omega
    · rw [h1, blk_insertInstsAt_other _ _ hbb]
  have hbslt : ∀ x ∈ backedges (entryStage off sz F).1 LI,
      x < (entryStage off sz F).1.blocks.length := backedges_lt
  obtain ⟨hlenL, _, hdecL⟩ := emitLoops_spec off sz (entryStage off sz F).2.1
    (backedges (entryStage off sz F).1 LI) (entryStage off sz F).1
    (entryStage off sz F).2.2.1 hbslt
  rw [runOnFunction_eq]
  unfold countPgcFn
  apply sum_map_blk_congr
  · rw [hlenL, hlen2]
  · intro b
    obtain ⟨t, hst, hins⟩ := hdecL b
    show ((blk _ b).insts).countP (fun i => isPgcCall i)
        = ((blk F b).insts).countP (fun i => isPgcCall i)
    rw [hins, List.countP_append, countP_pgc_of_pgcFree hst.pgcFree, hcnt2 b]
    omega

/-! ## The probe load's value is dead: freshness invariant -/

/-- No volatile loads anywhere in the function (true of any function
the pass has not yet processed: the pass itself is what introduces the
probe loads). -/
def noVol (F : Fn) : Prop := ∀ bb ∈ F.blocks, ∀ ins ∈ bb.insts, isVolLoad ins = false

instance (F : Fn) : Decidable (noVol F) := by
  unfold noVol; infer_instance

/-- Invariant carried through the emission loop: `fr` is the next
fresh id, `S` collects the result ids of all emitted probe loads, and
no operand anywhere in the function is in `S`. -/
structure UInv (F : Fn) (fr pg : Nat) (S : List Nat) : Prop where
  uses_lt : ∀ u : Nat, u ∈ usedIds F → u < fr
  uses_nS : ∀ u : Nat, u ∈ usedIds F → u ∉ S
  vol_ok : ∀ bb ∈ F.blocks, ∀ ins ∈ bb.insts, isVolLoad ins = true →
    ∃ r a : Nat, ins = Instr.load r .T_size a true ∧ r ∈ S
  s_lt : ∀ v : Nat, v ∈ S → v < fr
  pg_lt : pg < fr
  pg_nS : pg ∉ S

theorem mem_usedIds_of_block {F : Fn} {bb : BB} {u : Nat} (hbb : bb ∈ F.blocks)
    (h : u ∈ bb.insts.flatMap usesOf ++ bb.term.opnds) : u ∈ usedIds F :=
  List.mem_flatMap.mpr ⟨bb, hbb, h⟩

theorem usedIds_mem_set {F : Fn} {b : Nat} {bb' : BB} {u : Nat}
    (h : u ∈ usedIds ⟨F.blocks.set b bb'⟩) :
    u ∈ usedIds F ∨ u ∈ bb'.insts.flatMap usesOf ∨ u ∈ bb'.term.opnds := by
  unfold usedIds at h
  obtain ⟨bb, hbb, hu⟩ := List.mem_flatMap.mp h
  rcases List.mem_or_eq_of_mem_set hbb with hold | heq
  · exact Or.inl (mem_usedIds_of_block hold hu)
  · subst heq
    rcases List.mem_append.mp hu with h1 | h2
    · exact Or.inr (Or.inl h1)
    · exact Or.inr (Or.inr h2)

theorem mem_usedIds_appendToBlock {F : Fn} {b : Nat} {new : List Instr} {u : Nat}
    (h : u ∈ usedIds (appendToBlock F b new)) :
    u ∈ usedIds F ∨ u ∈ new.flatMap usesOf := by
  rcases usedIds_mem_set h with h1 | h2 | h3
  · exact Or.inl h1
  · rw [List.flatMap_append] at h2
    rcases List.mem_append.mp h2 with ha | hb2
    · by_cases hlt : b < F.blocks.length
      · exact Or.inl (mem_usedIds_of_block (blk_mem hlt) (List.mem_append.mpr (Or.inl ha)))
      · rw [blk_default_of_le (Nat.le_of_not_lt hlt)] at ha
        cases ha
    · exact Or.inr hb2
  · by_cases hlt : b < F.blocks.length
    · exact Or.inl (mem_usedIds_of_block (blk_mem hlt) (List.mem_append.mpr (Or.inr h3)))
    · rw [blk_default_of_le (Nat.le_of_not_lt hlt)] at h3
      cases h3

theorem mem_usedIds_insertInstsAt {F : Fn} {b i : Nat} {new : List Instr} {u : Nat}
    (h : u ∈ usedIds (insertInstsAt F b i new)) :
    u ∈ usedIds F ∨ u ∈ new.flatMap usesOf := by
  rcases usedIds_mem_set h with h1 | h2 | h3
  · exact Or.inl h1
  · rw [List.flatMap_append, List.flatMap_append] at h2
    rcases List.mem_append.mp h2 with ha | hb2
    · rcases List.mem_append.mp ha with ht | hn
      · obtain ⟨ins, hins, hu⟩ := List.mem_flatMap.mp ht
        by_cases hlt : b < F.blocks.length
        · exact Or.inl (mem_usedIds_of_block (blk_mem hlt) (List.mem_append.mpr (Or.inl
            (List.mem_flatMap.mpr ⟨ins, (List.take_sublist _ _).subset hins, hu⟩))))
        · rw [show blk F b = default from blk_default_of_le (Nat.le_of_not_lt hlt),
            show (default : BB).insts = [] from rfl, List.take_nil] at hins
          cases hins
      · exact Or.inr hn
    · obtain ⟨ins, hins, hu⟩ := List.mem_flatMap.mp hb2
      by_cases hlt : b < F.blocks.length
      · exact Or.inl (mem_usedIds_of_block (blk_mem hlt) (List.mem_append.mpr (Or.inl
          (List.mem_flatMap.mpr ⟨ins, (List.drop_sublist _ _).subset hins, hu⟩))))
      · rw [show blk F b = default from blk_default_of_le (Nat.le_of_not_lt hlt),
          show (default : BB).insts = [] from rfl, List.drop_nil] at hins
        cases hins
  · by_cases hlt : b < F.blocks.length
    · exact Or.inl (mem_usedIds_of_block (blk_mem hlt) (List.mem_append.mpr (Or.inr h3)))
    · rw [blk_default_of_le (Nat.le_of_not_lt hlt)] at h3
      cases h3

theorem uses_seqList (f pg nth : Nat) :
    (seqList f pg nth).flatMap usesOf = [pg, f + 1, f + 2, f + 3] := rfl

theorem vol_in_seqList {f pg nth : Nat} {ins : Instr} (hins : ins ∈ seqList f pg nth)
    (hv : isVolLoad ins = true) : ins = Instr.load (f + 4) .T_size (f + 3) true := by
  simp only [seqList, List.mem_cons, List.not_mem_nil, or_false] at hins
  rcases hins with h | h | h | h | h | h | h <;> subst h <;>
    first
    | rfl
    | exact Bool.noConfusion hv

theorem UInv.step {F : Fn} {fr pg : Nat} {S : List Nat} (h : UInv F fr pg S)
    (b nth : Nat) : UInv (appendToBlock F b (seqList fr pg nth)) (fr + 5) pg (S ++ [fr + 4]) := by
  constructor
  · intro u hu
    rcases mem_usedIds_appendToBlock hu with h1 | h2
    · have := h.uses_lt u h1
      omega
    · rw [uses_seqList] at h2
      simp only [List.mem_cons, List.not_mem_nil, or_false] at h2
      have hpg := h.pg_lt
      rcases h2 with rfl | rfl | rfl | rfl <;> omega
  · intro u hu hmem
    rcases List.mem_append.mp hmem with hS | hsing
    · rcases mem_usedIds_appendToBlock hu with h1 | h2
      · exact h.uses_nS u h1 hS
      · rw [uses_seqList] at h2
        simp only [List.mem_cons, List.not_mem_nil, or_false] at h2
        have hlt := h.s_lt u hS
        have hpg := h.pg_nS
        rcases h2 with rfl | rfl | rfl | rfl
        · exact hpg hS
        · omega
        · omega
        · omega
    · rw [List.mem_singleton] at hsing
      subst hsing
      rcases mem_usedIds_appendToBlock hu with h1 | h2
      · have := h.uses_lt _ h1
        omega
      · rw [uses_seqList] at h2
        simp only [List.mem_cons, List.not_mem_nil, or_false] at h2
        have hpg := h.pg_lt
        rcases h2 with h2 | h2 | h2 | h2 <;> omega
  · intro bb hbb ins hins hv
    rcases List.mem_or_eq_of_mem_set hbb with hold | heq
    · obtain ⟨r, a, he, hrS⟩ := h.vol_ok bb hold ins hins hv
      exact ⟨r, a, he, List.mem_append.mpr (Or.inl hrS)⟩
    · subst heq
      rcases List.mem_append.mp hins with hI | hN
      · by_cases hlt : b < F.blocks.length
        · obtain ⟨r, a, he, hrS⟩ := h.vol_ok _ (blk_mem hlt) ins hI hv
          exact ⟨r, a, he, List.mem_append.mpr (Or.inl hrS)⟩
        · rw [blk_default_of_le (Nat.le_of_not_lt hlt)] at hI
          cases hI
      · refine ⟨fr + 4, fr + 3, vol_in_seqList hN hv, ?_⟩
        exact List.mem_append.mpr (Or.inr (List.mem_singleton.mpr rfl))
  · intro v hv
    rcases List.mem_append.mp hv with hS | hsing
    · have := h.s_lt v hS
      omega
    · rw [List.mem_singleton] at hsing
      omega
  · have := h.pg_lt
    omega
  · intro hmem
    rcases List.mem_append.mp hmem with hS | hsing
    · exact h.pg_nS hS
    · rw [List.mem_singleton] at hsing
      have := h.pg_lt
      omega

theorem emitLoops_uinv (off sz pg : Nat) : ∀ (bs : List Nat) (F : Fn) (fr : Nat)
    (S : List Nat), UInv F fr pg S →
    ∃ fr' S', UInv (emitLoops off sz pg bs (F, fr)).1 fr' pg S' := by
  intro bs
  induction bs with
  | nil => intro F fr S h; exact ⟨fr, S, h⟩
  | cons b bs ih =>
    intro F fr S h
    show ∃ fr' S', UInv (emitLoops off sz pg bs
      (appendToBlock F b (emitGCSafepoint fr pg off sz), fr + 5)).1 fr' pg S'
    rw [emitGCSafepoint_eq]
    exact ih _ (fr + 5) (S ++ [fr + 4]) (h.step b (nthfield off sz))

theorem getD_mem {α : Type} [Inhabited α] {l : List α} {i : Nat} (h : i < l.length) :
    l.getD i default ∈ l := by
  rw [List.getD_eq_getElem _ _ h]
  exact List.getElem_mem h

theorem mem_insts_insertInstsAt {F : Fn} {b i : Nat} {new : List Instr} {b' : Nat} {ins : Instr}
    (h : ins ∈ (blk (insertInstsAt F b i new) b').insts) :
    ins ∈ (blk F b').insts ∨ ins ∈ new := by
  by_cases hbb : b' = b
  · subst hbb
    by_cases hlt : b' < F.blocks.length
    · rw [blk_insertInstsAt_self _ _ hlt] at h
      rcases List.mem_append.mp h with h1 | h2
      · rcases List.mem_append.mp h1 with ht | hn
        · exact Or.inl ((List.take_sublist _ _).subset ht)
        · exact Or.inr hn
      · exact Or.inl ((List.drop_sublist _ _).subset h2)
    · rw [show blk (insertInstsAt F b' i new) b' = blk F b' by
        rw [blk, blk, insertInstsAt, List.set_eq_of_length_le (Nat.le_of_not_lt hlt)]] at h
      exact Or.inl h
  · rw [blk_insertInstsAt_other _ _ hbb] at h
    exact Or.inl h

theorem noVol_blk {F : Fn} (hnv : noVol F) (b : Nat) :
    ∀ ins ∈ (blk F b).insts, isVolLoad ins = false := by
  by_cases hlt : b < F.blocks.length
  · exact fun ins h => hnv _ (blk_mem hlt) ins h
  · rw [blk_default_of_le (Nat.le_of_not_lt hlt),
      show (default : BB).insts = [] from rfl]
    intro ins h
    cases h

theorem noVol_insert {F : Fn} {b i : Nat} {new : List Instr} (hnv : noVol F)
    (hnew : ∀ ins ∈ new, isVolLoad ins = false) : noVol (insertInstsAt F b i new) := by
  intro bb hbb ins hins
  rcases List.mem_or_eq_of_mem_set hbb with hold | heq
  · exact hnv bb hold ins hins
  · subst heq
    rcases List.mem_append.mp hins with h1 | h2
    · rcases List.mem_append.mp h1 with ht | hn
      · exact noVol_blk hnv b ins ((List.take_sublist _ _).subset ht)
      · exact hnew ins hn
    · exact noVol_blk hnv b ins ((List.drop_sublist _ _).subset h2)

/-- After the entry stage the freshness invariant holds, with the
entry probe load's id as the initial dead set. -/
theorem entry_uinv (off sz : Nat) (F : Fn) (h0 : 0 < F.blocks.length) (hnv : noVol F) :
    ∃ S, UInv (entryStage off sz F).1 (entryStage off sz F).2.2.1 (entryStage off sz F).2.1 S := by
  set nth := nthfield off sz with hnth
  set m := maxIdFn F with hm
  cases hgp : getPGCstack F with
  | some s =>
    obtain ⟨bi, ii, pg⟩ := s
    obtain ⟨hbi, hfind, _⟩ := getPGCstack_spec hgp
    obtain ⟨hii, _, _, hres⟩ := findPgcIn_spec hfind
    have hpgle : pg ≤ m := by
      rw [← hres]
      exact resOf_le_maxIdFn (blk_mem hbi) (getD_mem hii)
    have hE := @entryStage_some off sz _ _ _ _ hgp
    rw [hE]
    dsimp only
    refine ⟨[m + 5], ?_, ?_, ?_, ?_, ?_, ?_⟩
    · intro u hu
      rcases mem_usedIds_insertInstsAt hu with h1 | h2
      · have := usedIds_le_maxIdFn h1
        omega
      · rw [uses_seqList] at h2
        simp only [List.mem_cons, List.not_mem_nil, or_false] at h2
        rcases h2 with rfl | rfl | rfl | rfl <;> omega
    · intro u hu hmem
      rw [List.mem_singleton] at hmem
      subst hmem
      rcases mem_usedIds_insertInstsAt hu with h1 | h2
      · have := usedIds_le_maxIdFn h1
        omega
      · rw [uses_seqList] at h2
        simp only [List.mem_cons, List.not_mem_nil, or_false] at h2
        rcases h2 with h2 | h2 | h2 | h2 <;> omega
    · intro bb hbb ins hins hv
      rcases List.mem_or_eq_of_mem_set hbb with hold | heq
      · rw [hnv bb hold ins hins] at hv
        exact Bool.noConfusion hv
      · subst heq
        rcases List.mem_append.mp hins with h1 | h2
        · rcases List.mem_append.mp h1 with ht | hn
          · rw [noVol_blk hnv bi ins ((List.take_sublist _ _).subset ht)] at hv
            exact Bool.noConfusion hv
          · refine ⟨m + 5, m + 4, ?_, List.mem_singleton.mpr rfl⟩
            have := vol_in_seqList hn hv
            simpa using this
        · rw [noVol_blk hnv bi ins ((List.drop_sublist _ _).subset h2)] at hv
          exact Bool.noConfusion hv
    · intro v hv
      rw [List.mem_singleton] at hv
      omega
    · omega
    · intro hmem
      rw [List.mem_singleton] at hmem
      omega
  | none =>
    have hE := @entryStage_none off sz _ hgp
    rw [hE]
    dsimp only
    have hnv1 : noVol (insertInstsAt F 0 (firstNonPHI (blk F 0))
        [Instr.call (m + 1) .getPGCStack []]) := by
      apply noVol_insert hnv
      intro ins hins
      rw [List.mem_singleton] at hins
      subst hins
      rfl
    refine ⟨[m + 6], ?_, ?_, ?_, ?_, ?_, ?_⟩
    · intro u hu
      rcases mem_usedIds_insertInstsAt hu with h1 | h2
      · rcases mem_usedIds_insertInstsAt h1 with h1' | h2'
        · have := usedIds_le_maxIdFn h1'
          omega
        · rw [show ([Instr.call (m + 1) Callee.getPGCStack []].flatMap usesOf) = []
            from rfl] at h2'
          cases h2'
      · rw [uses_seqList] at h2
        simp only [List.mem_cons, List.not_mem_nil, or_false] at h2
        rcases h2 with rfl | rfl | rfl | rfl <;> omega
    · intro u hu hmem
      rw [List.mem_singleton] at hmem
      subst hmem
      rcases mem_usedIds_insertInstsAt hu with h1 | h2
      · rcases mem_usedIds_insertInstsAt h1 with h1' | h2'
        · have := usedIds_le_maxIdFn h1'
          omega
        · rw [show ([Instr.call (m + 1) Callee.getPGCStack []].flatMap usesOf) = []
            from rfl] at h2'
          cases h2'
      · rw [uses_seqList] at h2
        simp only [List.mem_cons, List.not_mem_nil, or_false] at h2
        rcases h2 with h2 | h2 | h2 | h2 <;> omega
    · intro bb hbb ins hins hv
      rcases List.mem_or_eq_of_mem_set hbb with hold | heq
      · rw [hnv1 bb hold ins hins] at hv
        exact Bool.noConfusion hv
      · subst heq
        rcases List.mem_append.mp hins with h1 | h2
        · rcases List.mem_append.mp h1 with ht | hn
          · rw [noVol_blk hnv1 0 ins ((List.take_sublist _ _).subset ht)] at hv
            exact Bool.noConfusion hv
          · refine ⟨m + 6, m + 5, ?_, List.mem_singleton.mpr rfl⟩
            have := vol_in_seqList hn hv
            simpa using this
        · rw [noVol_blk hnv1 0 ins ((List.drop_sublist _ _).subset h2)] at hv
          exact Bool.noConfusion hv
    · intro v hv
      rw [List.mem_singleton] at hv
      omega
    · omega
    · intro hmem
      rw [List.mem_singleton] at hmem
      omega

/-- The probe loads are the only volatile loads in the output, they
load one machine word (`T_size`), and their loaded values are dead: no
instruction or terminator of the output uses them. -/
theorem run_probe_dead (off sz : Nat) (LI : List Loop) (F : Fn)
    (h0 : 0 < F.blocks.length) (hnv : noVol F) :
    ∀ bb ∈ (runOnFunction off sz LI F).1.blocks, ∀ ins ∈ bb.insts,
      isVolLoad ins = true →
      ∃ r a : Nat, ins = Instr.load r .T_size a true ∧
        r ∉ usedIds (runOnFunction off sz LI F).1 := by
  obtain ⟨S, hinv⟩ := entry_uinv off sz F h0 hnv
  obtain ⟨fr', S', hout⟩ := emitLoops_uinv off sz (entryStage off sz F).2.1
    (backedges (entryStage off sz F).1 LI) (entryStage off sz F).1
    (entryStage off sz F).2.2.1 S hinv
  intro bb hbb ins hins hv
  rw [runOnFunction_eq] at hbb
  obtain ⟨r, a, he, hrS⟩ := hout.vol_ok bb hbb ins hins hv
  refine ⟨r, a, he, fun hruse => ?_⟩
  rw [runOnFunction_eq] at hruse
  exact hout.uses_nS r hruse hrS

/-! ## Concrete example functions for witnesses -/

/-- An entry block branching to a self-looping block. -/
def exLoopFn : Fn := ⟨[⟨[], ⟨0, [], [1]⟩⟩, ⟨[], ⟨1, [], [1]⟩⟩]⟩

/-- Loop forest of `exLoopFn`: block 1 is a one-block loop. -/
def exLoopLI : List Loop := [⟨1, [1]⟩]

/-- Two nested loops (headers 1 and 2) sharing latch block 3, whose
terminator closes both. -/
def exNestedFn : Fn :=
  ⟨[⟨[], ⟨0, [], [1]⟩⟩, ⟨[], ⟨1, [], [2]⟩⟩, ⟨[], ⟨2, [], [3]⟩⟩, ⟨[], ⟨3, [], [2, 1]⟩⟩]⟩

/-- Loop forest of `exNestedFn`, outer loop first (preorder). -/
def exNestedLI : List Loop := [⟨1, [1, 2, 3]⟩, ⟨2, [2, 3]⟩]

/-- A function already containing a GC-state handle call (id 3). -/
def exHandleFn : Fn := ⟨[⟨[Instr.call 3 .getPGCStack []], ⟨0, [], []⟩⟩]⟩

/-- A single empty block. -/
def exEmptyFn : Fn := ⟨[⟨[], ⟨0, [], []⟩⟩]⟩

/-! ## The claims -/

/-- C1: for every function F with M qualifying loop backedges (counted
over every loop of the forest, with multiplicity), one pass run on a
clean F leaves exactly `1 + M` safepoint sequences in F, and with no
loops exactly 1. -/
theorem C1_pass_inserts_one_plus_M (off sz : Nat) (LI : List Loop) (F : Fn)
    (h0 : 0 < F.blocks.length) (hc : cleanFn F) :
    countSeqFn (nthfield off sz) (runOnFunction off sz LI F).1
      = 1 + (backedges F LI).length ∧
    countSeqFn (nthfield off sz) (runOnFunction off sz [] F).1 = 1 := by
  have h1 := (run_master off sz LI F h0 (hypGood_of_clean hc)).2.2.1
  have h2 := (run_master off sz [] F h0 (hypGood_of_clean hc)).2.2.1
  rw [countSeqFn_zero_of_clean hc] at h1 h2
  have hno : (backedges F ([] : List Loop)).length = 0 := rfl
  exact ⟨by omega, by omega⟩

theorem C1_pass_inserts_one_plus_M_witness :
    0 < exLoopFn.blocks.length ∧ cleanFn exLoopFn ∧
    countSeqFn (nthfield 16 8) (runOnFunction 16 8 exLoopLI exLoopFn).1
      = 1 + (backedges exLoopFn exLoopLI).length :=
  ⟨by decide, by decide,
    (C1_pass_inserts_one_plus_M 16 8 exLoopLI exLoopFn (by decide) (by decide)).1⟩

/-- C2 counterexample: at a concrete input the emitter inserts seven
instructions per safepoint sequence, not four (the address computation
of `getCurrentSignalPage` — GEP, bitcast, field load — sits between
the first fence and the volatile probe load). -/
theorem C2_counterexample :
    (emitGCSafepoint 1 0 16 8).length = 7 ∧ ¬ (emitGCSafepoint 1 0 16 8).length = 4 := by
  decide

/-- C2 (amended): every safepoint sequence emitted by the emitter
consists of exactly seven instructions inserted together immediately
before the cursor, in this fixed order: (1) a call to the root-flush
operation with no operands, (2) a sequentially-consistent
single-thread fence, (3) an inbounds GEP computing the field address
from the handle, (4) a bitcast of that address, (5) a load of the
signal-page-pointer field, (6) a volatile one-word probe load through
it, (7) a second identical fence — no more and no fewer. -/
theorem C2_amended_emitter_shape (f pg off sz : Nat) (F : Fn) (b i : Nat)
    (hb : b < F.blocks.length) :
    emitGCSafepoint f pg off sz
      = [Instr.call f .GCRootFlush [],
         Instr.fence .SequentiallyConsistent .SingleThread,
         Instr.gep (f + 1) pg (nthfield off sz),
         Instr.bitcast (f + 2) (f + 1),
         Instr.load (f + 3) .T_psize (f + 2) false,
         Instr.load (f + 4) .T_size (f + 3) true,
         Instr.fence .SequentiallyConsistent .SingleThread] ∧
    (emitGCSafepoint f pg off sz).length = 7 ∧
    (blk (insertInstsAt F b i (emitGCSafepoint f pg off sz)) b).insts
      = (blk F b).insts.take i ++ emitGCSafepoint f pg off sz ++ (blk F b).insts.drop i :=
  ⟨rfl, rfl, by rw [blk_insertInstsAt_self _ _ hb]⟩

theorem C2_amended_emitter_shape_witness :
    (emitGCSafepoint 1 0 16 8).length = 7 :=
  (C2_amended_emitter_shape 1 0 16 8 exLoopFn 0 0 (by decide)).2.1

/-- C3: within one function every safepoint site's GEP reads the same
handle operand and the same field index `off / sz`, so all sites
compute the identical byte address, and that address is
`handle_base + off` (the fixed byte offset of the safepoint-page
field) whenever the offset is pointer-aligned. -/
theorem C3_probe_address_determinism (off sz : Nat) (LI : List Loop) (F : Fn)
    (h0 : 0 < F.blocks.length) (hc : cleanFn F) (hdvd : sz ∣ off) :
    (∀ b i, isSeqAt (nthfield off sz)
        ((blk (runOnFunction off sz LI F).1 b).insts.drop i) = true →
      gepBaseAt ((blk (runOnFunction off sz LI F).1 b).insts.drop i)
        = some (handleId off sz F) ∧
      gepIdxAt ((blk (runOnFunction off sz LI F).1 b).insts.drop i)
        = some (nthfield off sz)) ∧
    (∀ a : Nat, gepByteAddr a (nthfield off sz) sz = a + off) := by
  refine ⟨(run_master off sz LI F h0 (hypGood_of_clean hc)).2.2.2.2.2.1, ?_⟩
  intro a
  unfold gepByteAddr nthfield
  rw [Nat.div_mul_cancel hdvd]

theorem C3_probe_address_determinism_witness :
    gepByteAddr 100 (nthfield 16 8) 8 = 100 + 16 :=
  (C3_probe_address_determinism 16 8 exLoopLI exLoopFn (by decide) (by decide)
    (by decide)).2 100

/-- C4: for every function, the entry safepoint sequence begins
immediately after (strictly after) the GC-state-handle-establishing
call, whether the handle pre-existed or was created by the pass: in
the output, the instruction at the handle site is the handle call
carrying the handle id, and a safepoint sequence starts at the very
next instruction index. -/
theorem C4_entry_after_handle (off sz : Nat) (LI : List Loop) (F : Fn)
    (h0 : 0 < F.blocks.length) :
    isPgcCall ((blk (runOnFunction off sz LI F).1 (handleSite off sz F).1).insts.getD
      (handleSite off sz F).2 default) = true ∧
    resOf ((blk (runOnFunction off sz LI F).1 (handleSite off sz F).1).insts.getD
      (handleSite off sz F).2 default) = handleId off sz F ∧
    isSeqAt (nthfield off sz)
      ((blk (runOnFunction off sz LI F).1 (handleSite off sz F).1).insts.drop
        ((handleSite off sz F).2 + 1)) = true := by
  obtain ⟨_, h1, h2, h3, _⟩ := run_position off sz LI F h0
  exact ⟨h1, h2, h3⟩

theorem C4_entry_after_handle_witness :
    isSeqAt (nthfield 16 8)
      ((blk (runOnFunction 16 8 exLoopLI exLoopFn).1 (handleSite 16 8 exLoopFn).1).insts.drop
        ((handleSite 16 8 exLoopFn).2 + 1)) = true :=
  (C4_entry_after_handle 16 8 exLoopLI exLoopFn (by decide)).2.2

/-- C5: when a GC-state handle already exists at `(bi, ii)` with id
`pg`, the locator returns exactly it (no mutation), the pass creates
no duplicate handle call, the handle instruction is untouched in the
output, and exactly one entry safepoint sequence sits immediately
after it, the total being `1 + M` sequences. -/
theorem C5_preexisting_handle (off sz : Nat) (LI : List Loop) (F : Fn) (bi ii pg : Nat)
    (hs : getPGCstack F = some (bi, ii, pg)) (hc : cleanFn F) :
    handleSite off sz F = (bi, ii) ∧
    handleId off sz F = pg ∧
    countPgcFn (runOnFunction off sz LI F).1 = countPgcFn F ∧
    (blk (runOnFunction off sz LI F).1 bi).insts.getD ii default
      = (blk F bi).insts.getD ii default ∧
    isSeqAt (nthfield off sz)
      ((blk (runOnFunction off sz LI F).1 bi).insts.drop (ii + 1)) = true ∧
    countSeqFn (nthfield off sz) (runOnFunction off sz LI F).1
      = 1 + (backedges F LI).length := by
  obtain ⟨hbi, hfind, _⟩ := getPGCstack_spec hs
  obtain ⟨hii, _, _, _⟩ := findPgcIn_spec hfind
  have h0 : 0 < F.blocks.length := Nat.lt_of_le_of_lt (Nat.zero_le bi) hbi
  have hsite := @handleSite_some off sz _ _ _ _ hs
  have hid := @handleId_some off sz _ _ _ _ hs
  obtain ⟨_, _, h2, h3, hgd⟩ := run_position off sz LI F h0
  rw [hsite] at h2 h3 hgd
  have hc2 := (run_master off sz LI F h0 (hypGood_of_clean hc)).2.2.1
  rw [countSeqFn_zero_of_clean hc] at hc2
  refine ⟨hsite, hid, run_pgcCount_found off sz LI F bi ii pg hs, ?_, h3, by omega⟩
  rw [hgd, entryStage_some_insts hs hbi, getD_insert_block _ hii]

theorem C5_preexisting_handle_witness :
    countPgcFn (runOnFunction 16 8 [] exHandleFn).1 = countPgcFn exHandleFn :=
  (C5_preexisting_handle 16 8 [] exHandleFn 0 0 3 (by decide) (by decide)).2.2.1

/-- C6: each block holding qualifying backedges gets one independent
safepoint sequence per edge, with no deduplication: in the output of a
clean run, a block's sequence count is its multiplicity in the
backedge list (plus one if it is the handle block).  In particular a
latch closing two nested loops gets 2 sequences and the function 3
total (see the witness). -/
theorem C6_per_edge_no_dedup (off sz : Nat) (LI : List Loop) (F : Fn)
    (h0 : 0 < F.blocks.length) (hc : cleanFn F) (b : Nat) :
    countSeqL (nthfield off sz) (blk (runOnFunction off sz LI F).1 b).insts
      = (if b = (handleSite off sz F).1 then 1 else 0) + (backedges F LI).count b :=
  run_perblock off sz LI F h0 hc b

theorem C6_per_edge_no_dedup_witness :
    countSeqL (nthfield 16 8) (blk (runOnFunction 16 8 exNestedLI exNestedFn).1 3).insts
      = (if 3 = (handleSite 16 8 exNestedFn).1 then 1 else 0)
        + (backedges exNestedFn exNestedLI).count 3 ∧
    (backedges exNestedFn exNestedLI).count 3 = 2 ∧
    countSeqFn (nthfield 16 8) (runOnFunction 16 8 exNestedLI exNestedFn).1 = 3 :=
  ⟨C6_per_edge_no_dedup 16 8 exNestedLI exNestedFn (by decide) (by decide) 3,
    by decide, by decide⟩

/-- C7: the pass is not idempotent: running it again on its own output
(same CFG, hence same backedge structure) adds another `1 + M`
safepoint sequences, so the second output strictly contains more
sequences than the first. -/
theorem C7_not_idempotent (off sz : Nat) (LI : List Loop) (F : Fn)
    (h0 : 0 < F.blocks.length) (hc : cleanFn F) :
    countSeqFn (nthfield off sz)
        (runOnFunction off sz LI (runOnFunction off sz LI F).1).1
      = (1 + (backedges F LI).length) + (1 + (backedges F LI).length) ∧
    countSeqFn (nthfield off sz)
        (runOnFunction off sz LI (runOnFunction off sz LI F).1).1
      > countSeqFn (nthfield off sz) (runOnFunction off sz LI F).1 := by
  obtain ⟨hlen, hterm, hcnt, _, hgood, _⟩ := run_master off sz LI F h0 (hypGood_of_clean hc)
  have h0' : 0 < (runOnFunction off sz LI F).1.blocks.length := by
    rw [hlen]; exact h0
  have hcnt2 := (run_master off sz LI (runOnFunction off sz LI F).1 h0' hgood).2.2.1
  have hbe : backedges (runOnFunction off sz LI F).1 LI = backedges F LI :=
    backedges_congr LI hlen hterm
  rw [countSeqFn_zero_of_clean hc] at hcnt
  rw [hbe] at hcnt2
  exact ⟨by omega, by omega⟩

theorem C7_not_idempotent_witness :
    countSeqFn (nthfield 16 8)
        (runOnFunction 16 8 exLoopLI (runOnFunction 16 8 exLoopLI exLoopFn).1).1
      > countSeqFn (nthfield 16 8) (runOnFunction 16 8 exLoopLI exLoopFn).1 :=
  (C7_not_idempotent 16 8 exLoopLI exLoopFn (by decide) (by decide)).2

/-- C8: when no GC-state handle exists and the entry block has no phi
instructions (LLVM entry blocks cannot have phis, having no
predecessors), the locator inserts the handle-establishing call as the
very first instruction of the entry block and the pass uses the newly
created value (id `maxIdFn F + 1`) as the handle. -/
theorem C8_creates_handle_first (off sz : Nat) (LI : List Loop) (F : Fn)
    (h0 : 0 < F.blocks.length) (hs : getPGCstack F = none)
    (hphi : ∀ ins ∈ (blk F 0).insts, isPhi ins = false) :
    handleSite off sz F = (0, 0) ∧
    handleId off sz F = maxIdFn F + 1 ∧
    (blk (runOnFunction off sz LI F).1 0).insts.getD 0 default
      = Instr.call (maxIdFn F + 1) .getPGCStack [] := by
  have hfnp : firstNonPHI (blk F 0) = 0 := by
    unfold firstNonPHI
    cases hI : (blk F 0).insts with
    | nil => rfl
    | cons x l =>
      rw [List.findIdx_cons]
      rw [show isPhi x = false from hphi x (by rw [hI]; exact List.mem_cons_self _ _)]
      rfl
  have hsite : handleSite off sz F = (0, 0) := by
    rw [handleSite_none hs, hfnp]
  refine ⟨hsite, handleId_none hs, ?_⟩
  obtain ⟨_, _, _, _, hgd⟩ := run_position off sz LI F h0
  rw [hsite] at hgd
  rw [hgd, entryStage_none_insts h0 hs, hfnp]
  simp

theorem C8_creates_handle_first_witness :
    (blk (runOnFunction 16 8 [] exEmptyFn).1 0).insts.getD 0 default
      = Instr.call (maxIdFn exEmptyFn + 1) .getPGCStack [] :=
  (C8_creates_handle_first 16 8 [] exEmptyFn (by decide) (by decide) (by decide)).2.2

/-- C9: in every emitted safepoint sequence the probe is a volatile
load of one machine word (`T_size`) and the two fences around it are
identical, sequentially consistent and single-thread scoped; and in
the pass output (on input without volatile loads) every volatile
load's result is dead — used by no instruction or terminator. -/
theorem C9_probe_volatile_discarded (off sz : Nat) (LI : List Loop) (F : Fn)
    (h0 : 0 < F.blocks.length) (hnv : noVol F) :
    (∀ f pg : Nat,
      (emitGCSafepoint f pg off sz).getD 5 default
        = Instr.load (f + 4) .T_size (f + 3) true ∧
      (emitGCSafepoint f pg off sz).getD 1 default
        = Instr.fence .SequentiallyConsistent .SingleThread ∧
      (emitGCSafepoint f pg off sz).getD 6 default
        = (emitGCSafepoint f pg off sz).getD 1 default) ∧
    (∀ bb ∈ (runOnFunction off sz LI F).1.blocks, ∀ ins ∈ bb.insts,
      isVolLoad ins = true →
      ∃ r a : Nat, ins = Instr.load r .T_size a true ∧
        r ∉ usedIds (runOnFunction off sz LI F).1) :=
  ⟨fun f pg => ⟨rfl, rfl, rfl⟩, run_probe_dead off sz LI F h0 hnv⟩

theorem C9_probe_volatile_discarded_witness :
    (emitGCSafepoint 1 0 16 8).getD 5 default = Instr.load 5 .T_size 4 true :=
  ((C9_probe_volatile_discarded 16 8 [] exEmptyFn (by decide) (by decide)).1 1 0).1

/-- C10: the pass only inserts instructions: block count, every
terminator (hence the whole CFG edge structure), and every original
instruction — unmodified and in its original relative order — are
preserved from input to output. -/
theorem C10_only_inserts (off sz : Nat) (LI : List Loop) (F : Fn) :
    (runOnFunction off sz LI F).1.blocks.length = F.blocks.length ∧
    (∀ b, (blk (runOnFunction off sz LI F).1 b).term = (blk F b).term) ∧
    (∀ b, (blk F b).insts.Sublist (blk (runOnFunction off sz LI F).1 b).insts) :=
  run_frame off sz LI F
